import Mathlib

/-!
Probe descriptor, argument resolution and worker dispatch of `snort-main.c`.

A shallow embedding of `src/snort-main.c`.

* C strings are lists of characters without the terminating NUL.
* Behaviour the C standard leaves undefined (writing past an array, passing a
  null pointer to `sscanf`, a `%d` conversion that does not fit an `int`) is an
  explicit `Outcome.fault`.
* Automatic variables that are read before being written (`lid`, `pid`, `qid`,
  `num`) start from the indeterminate values of a `frame_t` argument.
* Output (usage text, log lines, worker launches) is a list of `Event`s.
-/

namespace Snort

/-- A C string: its characters up to, and without, the terminating NUL. -/
abbrev CStr := List Char

/-- The ways in which the C code leaves defined behaviour. -/
inductive Fault where
  | buffer_overflow
  | null_pointer
  | int_overflow
  | index_out_of_bounds
  | no_argv
  | out_of_fuel
deriving DecidableEq, Repr

/-- Result of running a piece of C code: a value, or undefined behaviour. -/
inductive Outcome (α : Type) where
  | ok (a : α)
  | fault (f : Fault)
deriving DecidableEq, Repr

/-! ## Data model -/

/-- Modelled from the spec: the declaration of one mapping entry (`l2p_t`, in
`app-probe.h`) is not among the sources; the spec gives the three members as
integers. -/
structure l2p_t where
  lcore_id : Int
  port_id : Int
  queue_id : Int
deriving DecidableEq, Repr

/-- Modelled from the spec: the collector endpoint of `probe_t` (`app-probe.h`
is not among the sources): a character array holding the address and an `int`
port. -/
structure collector_t where
  addr : CStr
  port : Int
deriving DecidableEq, Repr

/-- Modelled from the spec: the probe descriptor `probe_t` (`app-probe.h` is
not among the sources). `l2p` is the fixed-size mapping array, `rest` the bytes
of every member the spec does not name. -/
structure probe_t where
  collector : collector_t
  nb_queues : Int
  l2p : List l2p_t
  rest : List Nat
deriving DecidableEq, Repr

/-- The array bounds of `probe_t`, declared in the missing `app-probe.h`:
the size of `collector.addr`, the length of `l2p`, and the number of bytes of
the remaining members. -/
structure layout_t where
  addr_size : Nat
  l2p_size : Nat
  rest_size : Nat
deriving DecidableEq, Repr

/-- The indeterminate initial values of the automatic variables of one call:
`lid`, `pid`, `qid` of `parse_app_l2p` and `num` of `parse_app_num_queues`. -/
structure frame_t where
  lid : Int
  pid : Int
  qid : Int
  num : Int
deriving DecidableEq, Repr

/-- The worker entry points that can be handed to `rte_eal_remote_launch`. -/
inductive lcore_function_t where
  | launch_probe
deriving DecidableEq, Repr

/-- What the program emits or asks of the platform, in order. -/
inductive Event where
  | stdout (text : CStr)
  | init_log_err (lcore_count : Int) (mapping : Int)
  | signal_sigint
  | clrscr
  | usage_hook
  | remote_launch (f : lcore_function_t) (arg : Option Nat) (lcore_id : Nat)
  | delay_ms (ms : Nat)
  | logo
  | mp_wait_lcore
  | exit_failure (msg : CStr)
deriving DecidableEq, Repr

/-- The platform the program runs on: the DPDK core set, the environment's
`POSIXLY_CORRECT`, and the two collaborators whose code is not in
`snort-main.c`: `rte_eal_init` gives its return value and the argument vector
as it leaves it, `app_init` the descriptor it leaves, or `none` when it ends
the process. -/
structure platform_t where
  RTE_MAX_LCORE : Nat
  max_lcore_le : RTE_MAX_LCORE ≤ 255
  lcore_enabled : Nat → Bool
  master_lcore : Nat
  posixly_correct : Bool
  rte_eal_init : List CStr → Int × List CStr
  app_init : probe_t → Option probe_t

/-- The cores `RTE_LCORE_FOREACH_SLAVE` visits: every enabled lcore below
`RTE_MAX_LCORE` other than the master, in increasing order. -/
def lcore_foreach_slave (P : platform_t) : List Nat :=
  (List.range P.RTE_MAX_LCORE).filter (fun i => P.lcore_enabled i && i != P.master_lcore)

/-! ## libc: character classes, `sscanf` conversions, `strtok` -/

/-- The C `isspace` in the "C" locale. -/
def isspace (c : Char) : Bool :=
  c.toNat == 32 || (9 ≤ c.toNat && c.toNat ≤ 13)

/-- The C `isdigit`. -/
def isdigit (c : Char) : Bool :=
  48 ≤ c.toNat && c.toNat ≤ 57

/-- The value `c - '0'` of a digit character, computed in `int` as C does. -/
def digit_value (c : Char) : Nat :=
  ((c.toNat : Int) - 48).toNat

/-- Skip leading white space, as every `sscanf` conversion but `%c` does. -/
def skip_space : CStr → CStr
  | [] => []
  | c :: cs => if isspace c then skip_space cs else c :: cs

/-- Read the longest run of decimal digits, accumulating its value. -/
def scan_digits (acc : Nat) : CStr → Nat × CStr
  | [] => (acc, [])
  | c :: cs => if isdigit c then scan_digits (10 * acc + digit_value c) cs else (acc, c :: cs)

/-- The digits of a `%d` conversion once sign and white space are gone: at
least one digit is needed. -/
def scan_unsigned (s : CStr) : Option (Nat × CStr) :=
  match s with
  | [] => none
  | c :: cs => if isdigit c then some (scan_digits 0 (c :: cs)) else none

/-- The `%d` conversion of `sscanf`: white space, an optional sign, decimal
digits. Gives the value and the unread input, `none` on a matching failure. -/
def scan_d (s : CStr) : Option (Int × CStr) :=
  match skip_space s with
  | [] => none
  | c :: cs =>
    if c = '-' then
      (scan_unsigned cs).map (fun r => (- (r.1 : Int), r.2))
    else if c = '+' then
      (scan_unsigned cs).map (fun r => ((r.1 : Int), r.2))
    else
      (scan_unsigned (c :: cs)).map (fun r => ((r.1 : Int), r.2))

/-- Smallest value of a C `int`. -/
def INT_MIN : Int := -2147483648

/-- Largest value of a C `int`. -/
def INT_MAX : Int := 2147483647

/-- Whether a converted value fits the `int` it is stored in. -/
def in_int (v : Int) : Bool :=
  decide (INT_MIN ≤ v) && decide (v ≤ INT_MAX)

/-- The `%s` conversion of `sscanf`: white space, then the longest run of
non-white-space characters; `none` when the input ends first. -/
def scan_s (s : CStr) : Option CStr :=
  match skip_space s with
  | [] => none
  | c :: cs => some ((c :: cs).takeWhile (fun x => !isspace x))

/-- One call of `strtok` on the text still to be split: `none` (a null
pointer) when only delimiters are left, else the token and the text after the
delimiter that ended it. -/
def strtok (s : CStr) (delim : CStr) : Option (CStr × CStr) :=
  match s.dropWhile (fun x => delim.elem x) with
  | [] => none
  | c :: cs =>
    some ((c :: cs).takeWhile (fun x => !delim.elem x),
          ((c :: cs).dropWhile (fun x => !delim.elem x)).drop 1)

/-! ## snort-main.c -/

/-- The text `app_usage` prints. -/
def app_usage (prgname : CStr) : CStr :=
  "Usage: ".toList ++ prgname ++ " [EAL options] -- [-h]\n".toList
    ++ " -m <string> matrix for mapping ports to logical cores\n".toList
    ++ " -q <number> number of Queues per port\n".toList
    ++ " -H <collector IP> (default:127.0.0.1)\n".toList
    ++ " -P <collector Port> (default:2055)\n".toList
    ++ " -h        Display the help information\n".toList

/-- The source's `parse_app_collector_host`: `sscanf(str, "%s", probe.collector.addr)`.
The token and its NUL must fit the address array. -/
def parse_app_collector_host (L : layout_t) (probe : probe_t) (str : CStr) : Outcome probe_t :=
  match scan_s str with
  | none => Outcome.ok probe
  | some tok =>
    if tok.length + 1 ≤ L.addr_size then
      Outcome.ok { probe with collector := { probe.collector with addr := tok } }
    else Outcome.fault Fault.buffer_overflow

/-- The source's `parse_app_collector_port`: `sscanf(str, "%d", &probe.collector.port)`. -/
def parse_app_collector_port (probe : probe_t) (str : CStr) : Outcome probe_t :=
  match scan_d str with
  | none => Outcome.ok probe
  | some (v, _) =>
    if in_int v then
      Outcome.ok { probe with collector := { probe.collector with port := v } }
    else Outcome.fault Fault.int_overflow

/-- The source's `parse_app_num_queues`: `num` is assigned by `sscanf` when the
conversion succeeds and is copied to `probe.nb_queues` in every case. -/
def parse_app_num_queues (fr : frame_t) (probe : probe_t) (str : CStr) : Outcome probe_t :=
  match scan_d str with
  | none => Outcome.ok { probe with nb_queues := fr.num }
  | some (v, _) =>
    if in_int v then Outcome.ok { probe with nb_queues := v }
    else Outcome.fault Fault.int_overflow

/-- The call `sscanf(ptr, "%d:%d.%d", &lid, &pid, &qid)`: each variable is
assigned as soon as its conversion succeeds, and scanning stops at the first
directive that does not match. Gives the three variables after the call. -/
def sscanf_l2p (ptr : CStr) (lid pid qid : Int) : Outcome (Int × Int × Int) :=
  match scan_d ptr with
  | none => Outcome.ok (lid, pid, qid)
  | some (a, r1) =>
    if !in_int a then Outcome.fault Fault.int_overflow else
    match r1 with
    | [] => Outcome.ok (a, pid, qid)
    | c1 :: r2 =>
      if c1 ≠ ':' then Outcome.ok (a, pid, qid) else
      match scan_d r2 with
      | none => Outcome.ok (a, pid, qid)
      | some (b, r3) =>
        if !in_int b then Outcome.fault Fault.int_overflow else
        match r3 with
        | [] => Outcome.ok (a, b, qid)
        | c2 :: r4 =>
          if c2 ≠ '.' then Outcome.ok (a, b, qid) else
          match scan_d r4 with
          | none => Outcome.ok (a, b, qid)
          | some (c, _) =>
            if !in_int c then Outcome.fault Fault.int_overflow
            else Outcome.ok (a, b, c)

/-- The three assignments `probe.l2p[idx].lcore_id = lid; ... .port_id = pid;
... .queue_id = qid`; `idx` must lie inside the array. -/
def l2p_store (probe : probe_t) (idx : Nat) (lid pid qid : Int) : Outcome probe_t :=
  if idx < probe.l2p.length then
    Outcome.ok { probe with l2p := probe.l2p.set idx ⟨lid, pid, qid⟩ }
  else Outcome.fault Fault.index_out_of_bounds

/-- The `while (ptr = strtok(NULL, ","))` loop of `parse_app_l2p`. `saved` is
the text `strtok` still has to split; every turn consumes at least one of its
characters, so `saved.length + 1` turns of fuel always suffice. Gives the
descriptor and `idx` at loop exit. -/
def l2p_loop : Nat → CStr → probe_t → Nat → Int → Int → Int → Outcome (probe_t × Nat)
  | 0, _, _, _, _, _, _ => Outcome.fault Fault.out_of_fuel
  | fuel + 1, saved, probe, idx, lid, pid, qid =>
    match strtok saved ",".toList with
    | none => Outcome.ok (probe, idx)
    | some (ptr, saved1) =>
      match sscanf_l2p ptr lid pid qid with
      | Outcome.fault f => Outcome.fault f
      | Outcome.ok (lid1, pid1, qid1) =>
        match l2p_store probe idx lid1 pid1 qid1 with
        | Outcome.fault f => Outcome.fault f
        | Outcome.ok probe1 => l2p_loop fuel saved1 probe1 (idx + 1) lid1 pid1 qid1

/-- The source's `parse_app_l2p`. `strcpy(temp, str)` needs `str` and its NUL
to fit `char temp[64]`; the first `strtok` result is passed to `sscanf`
unchecked; the error line prints `--lcore_count` and `--idx`. Gives the
descriptor and the log lines written. -/
def parse_app_l2p (P : platform_t) (fr : frame_t) (probe : probe_t) (str : CStr) :
    Outcome (probe_t × List Event) :=
  if 64 < str.length + 1 then Outcome.fault Fault.buffer_overflow else
  match strtok str ",".toList with
  | none => Outcome.fault Fault.null_pointer
  | some (ptr, saved) =>
    match sscanf_l2p ptr fr.lid fr.pid fr.qid with
    | Outcome.fault f => Outcome.fault f
    | Outcome.ok (lid, pid, qid) =>
      match l2p_store probe 0 lid pid qid with
      | Outcome.fault f => Outcome.fault f
      | Outcome.ok probe1 =>
        match l2p_loop (saved.length + 1) saved probe1 1 lid pid qid with
        | Outcome.fault f => Outcome.fault f
        | Outcome.ok (probe2, idx) =>
          let lcore_count : Nat := (lcore_foreach_slave P).length
          if idx ≠ lcore_count then
            Outcome.ok (probe2, [Event.init_log_err ((lcore_count : Int) - 1) ((idx : Int) - 1)])
          else Outcome.ok (probe2, [])

/-- The source's `init_probe`: `memset` to zero, then the three defaults.
`strcpy` needs the ten bytes of `"127.0.0.1"` to fit the address array. -/
def init_probe (L : layout_t) (_p : probe_t) : Outcome probe_t :=
  if 10 ≤ L.addr_size then
    Outcome.ok
      { collector := { addr := "127.0.0.1".toList, port := 2055 }
        nb_queues := 1
        l2p := List.replicate L.l2p_size ⟨0, 0, 0⟩
        rest := List.replicate L.rest_size 0 }
  else Outcome.fault Fault.buffer_overflow

/-! ## libc: GNU `getopt_long`

The scanner state is kept as lists: with `prgname` in front, `argv` is
`prgname :: seen ++ skipped ++ rest` and `optind` is `1 + seen.length`.
`seen` holds the elements consumed as options, option arguments or the `--`
terminator; `skipped` the non-options passed over, which the permutation moves
behind them; `rest` the elements from `argv[optind]` on; `nextchar` what is
left of a cluster of short options inside `rest.head`. -/

/-- State of the option scanner between two calls. -/
structure getopt_t where
  seen : List CStr
  skipped : List CStr
  nextchar : CStr
  rest : List CStr
  posixly_correct : Bool
deriving DecidableEq, Repr

/-- The value of `optind` in a scanner state. -/
def getopt_t.optind (st : getopt_t) : Nat := 1 + st.seen.length

/-- The `NONOPTION_P` test of getopt: the element does not start with `-`, or
is `-` alone. -/
def NONOPTION_P (e : CStr) : Bool :=
  match e with
  | c :: _ :: _ => c != '-'
  | _ => true

/-- The lookup `strchr(optstring, c)` together with the test of the character
after the match: `none` when `c` is not an option character, else whether the
option takes an argument. -/
def opt_lookup : CStr → Char → Option Bool
  | [], _ => none
  | o :: os, c => if o = c then some (os.head? == some ':') else opt_lookup os c

/-- The value `EOF`, which `getopt_long` returns when the options are exhausted. -/
def EOF : Int := -1

/-- The character code `getopt_long` returns for an option character. -/
def opt_code (c : Char) : Int := (c.toNat : Int)

/-- The short-option part of getopt: `c` is the option character read from
element `e` (the head of the unscanned elements, followed by `r`), `nc` what
follows `c` inside `e`. Gives the return value, `optarg` and the new state. -/
def getopt_short (optstring : CStr) (st : getopt_t) (e : CStr) (r : List CStr)
    (c : Char) (nc : CStr) : Int × Option CStr × getopt_t :=
  let st1 : getopt_t :=
    if nc = [] then { st with seen := st.seen ++ [e], nextchar := [], rest := r }
    else { st with nextchar := nc, rest := e :: r }
  match opt_lookup optstring c with
  | none => (opt_code '?', none, st1)
  | some has_arg =>
    if c = ':' ∨ c = ';' then (opt_code '?', none, st1)
    else if has_arg then
      if nc ≠ [] then
        (opt_code c, some nc, { st with seen := st.seen ++ [e], nextchar := [], rest := r })
      else
        match r with
        | [] => (opt_code '?', none, st1)
        | a :: r1 =>
          (opt_code c, some a, { st with seen := st.seen ++ [e, a], nextchar := [], rest := r1 })
    else (opt_code c, none, st1)

/-- One call of `getopt_long(argc, argv, optstring, lgopts, &option_index)` with
the empty table of long options the source passes. By default the non-options
are skipped and permuted behind the options; with `POSIXLY_CORRECT` the scan
stops at the first of them. `--` ends the scan; any other element starting
with `--` is an unrecognised long option. -/
def getopt_long (optstring : CStr) (st : getopt_t) : Int × Option CStr × getopt_t :=
  match st.nextchar, st.rest with
  | c :: nc, e :: r => getopt_short optstring st e r c nc
  | _, _ =>
    let sp : List CStr × List CStr :=
      if st.posixly_correct then ([], st.rest) else st.rest.span NONOPTION_P
    let st1 : getopt_t := { st with skipped := st.skipped ++ sp.1, nextchar := [], rest := sp.2 }
    match sp.2 with
    | [] => (EOF, none, st1)
    | e :: r =>
      if e = "--".toList then (EOF, none, { st1 with seen := st1.seen ++ [e], rest := r })
      else if NONOPTION_P e then (EOF, none, st1)
      else
        match e with
        | _ :: c :: nc =>
          if c = '-' then
            (opt_code '?', none, { st1 with seen := st1.seen ++ [e], rest := r })
          else getopt_short optstring st1 e r c nc
        | _ => (EOF, none, st1)

/-! ## snort-main.c: argument resolution and dispatch -/

/-- What `app_parse_args` leaves behind: its return value, the value `optind`
had when the option loop was left, the argument vector, the descriptor and the
output written. -/
structure parse_result where
  ret : Int
  optind : Nat
  argv : List CStr
  probe : probe_t
  out : List Event
deriving DecidableEq, Repr

/-- The argument vector as a scanner state lays it out. -/
def argv_of (prgname : CStr) (st : getopt_t) : List CStr :=
  prgname :: (st.seen ++ st.skipped ++ st.rest)

/-- The option string `app_parse_args` passes to `getopt_long`. -/
def optstring : CStr := "m:H:P:q:".toList

/-- The body of `switch (opt)` in `app_parse_args`, run on the stack contents
`f`: the descriptor and the log lines a handler leaves, or `none` for `case 0`
and `default`, which print the usage text and return -1. -/
def opt_switch (P : platform_t) (L : layout_t) (f : frame_t) (probe : probe_t) (opt : Int)
    (optarg : Option CStr) : Outcome (Option (probe_t × List Event)) :=
  if opt = opt_code 'm' then
    match optarg with
    | none => Outcome.fault Fault.null_pointer
    | some a =>
      match parse_app_l2p P f probe a with
      | Outcome.fault e => Outcome.fault e
      | Outcome.ok (probe1, log) => Outcome.ok (some (probe1, log))
  else if opt = opt_code 'H' then
    match optarg with
    | none => Outcome.fault Fault.null_pointer
    | some a =>
      match parse_app_collector_host L probe a with
      | Outcome.fault e => Outcome.fault e
      | Outcome.ok probe1 => Outcome.ok (some (probe1, []))
  else if opt = opt_code 'P' then
    match optarg with
    | none => Outcome.fault Fault.null_pointer
    | some a =>
      match parse_app_collector_port probe a with
      | Outcome.fault e => Outcome.fault e
      | Outcome.ok probe1 => Outcome.ok (some (probe1, []))
  else if opt = opt_code 'q' then
    match optarg with
    | none => Outcome.fault Fault.null_pointer
    | some a =>
      match parse_app_num_queues f probe a with
      | Outcome.fault e => Outcome.fault e
      | Outcome.ok probe1 => Outcome.ok (some (probe1, []))
  else Outcome.ok none

/-- The `while ((opt = getopt_long(...)) != EOF) switch (opt)` loop of
`app_parse_args` followed by the code after it. Every turn that continues has
consumed an element of `rest`, so `rest.length + 1` turns of fuel suffice.
`fr` gives the stack contents met by the handler called in each turn. -/
def parse_loop (P : platform_t) (L : layout_t) (prgname : CStr) :
    Nat → (Nat → frame_t) → getopt_t → probe_t → List Event → Outcome parse_result
  | 0, _, _, _, _ => Outcome.fault Fault.out_of_fuel
  | fuel + 1, fr, st, probe, out =>
    if (getopt_long optstring st).1 = EOF then
      Outcome.ok
        { ret := ((getopt_long optstring st).2.2.optind : Int) - 1
          optind := (getopt_long optstring st).2.2.optind
          argv := (argv_of prgname (getopt_long optstring st).2.2).set
            ((getopt_long optstring st).2.2.optind - 1) prgname
          probe := probe
          out := out }
    else
      match opt_switch P L (fr 0) probe (getopt_long optstring st).1
          (getopt_long optstring st).2.1 with
      | Outcome.fault e => Outcome.fault e
      | Outcome.ok none =>
        Outcome.ok
          { ret := -1
            optind := (getopt_long optstring st).2.2.optind
            argv := argv_of prgname (getopt_long optstring st).2.2
            probe := probe
            out := out ++ [Event.stdout (app_usage prgname)] }
      | Outcome.ok (some (probe1, log)) =>
        parse_loop P L prgname fuel (fun n => fr (n + 1)) (getopt_long optstring st).2.2
          probe1 (out ++ log)

/-- The scanner state at the first call: the scan starts afresh (`optind` is 0
or 1 at entry), so `optind` becomes 1 and nothing is scanned yet. The messages
getopt itself prints on the standard error are not part of the model. -/
def getopt_start (P : platform_t) (args : List CStr) : getopt_t :=
  { seen := [], skipped := [], nextchar := [], rest := args,
    posixly_correct := P.posixly_correct }

/-- The source's `app_parse_args`, on the global descriptor `probe`. `argv[0]`
is the program name; `argc` is the length of `argv` and at least 1. -/
def app_parse_args (P : platform_t) (L : layout_t) (fr : Nat → frame_t) (probe : probe_t)
    (argv : List CStr) : Outcome parse_result :=
  match argv with
  | [] => Outcome.fault Fault.no_argv
  | prgname :: args =>
    parse_loop P L prgname (args.length + 1) fr (getopt_start P args) probe []

/-- How a run of `main` ends. -/
inductive ending_t where
  | returned (v : Int)
  | exited (status : Int)
  | ended_in_app_init
deriving DecidableEq, Repr

/-- The value of `EXIT_FAILURE`. -/
def EXIT_FAILURE : Int := 1

/-- The launches of the `RTE_LCORE_FOREACH_SLAVE` loop of `main`. -/
def dispatch (P : platform_t) : List Event :=
  (lcore_foreach_slave P).map
    (fun lcore_id => Event.remote_launch lcore_function_t.launch_probe none lcore_id)

/-- What `main` does before `init_probe`. -/
def main_prologue : List Event :=
  [Event.signal_sigint, Event.clrscr, Event.usage_hook]

/-- What `main` does after the launches when every call returns. -/
def main_epilogue : List Event :=
  [Event.delay_ms 5000, Event.clrscr, Event.logo, Event.mp_wait_lcore]

/-- The source's `main`: the events of the run, in order, and how it ends.
`probe0` is the content of the global descriptor at entry. -/
def main (P : platform_t) (L : layout_t) (fr : Nat → frame_t) (probe0 : probe_t)
    (argv : List CStr) : Outcome (List Event × ending_t) :=
  match init_probe L probe0 with
  | Outcome.fault f => Outcome.fault f
  | Outcome.ok probe =>
    let ret : Int := (P.rte_eal_init argv).1
    let argv1 : List CStr := (P.rte_eal_init argv).2
    if ret < 0 then
      Outcome.ok (main_prologue ++ [Event.exit_failure "Failed in rte_eal_init\n".toList],
        ending_t.exited EXIT_FAILURE)
    else
      match app_parse_args P L fr probe (argv1.drop ret.toNat) with
      | Outcome.fault f => Outcome.fault f
      | Outcome.ok r =>
        if r.ret < 0 then
          Outcome.ok (main_prologue ++ r.out ++ [Event.exit_failure "Invalid arguments\n".toList],
            ending_t.exited EXIT_FAILURE)
        else
          match P.app_init r.probe with
          | none => Outcome.ok (main_prologue ++ r.out, ending_t.ended_in_app_init)
          | some _ =>
            Outcome.ok (main_prologue ++ r.out ++ dispatch P ++ main_epilogue,
              ending_t.returned 0)

/-! ## Mapping specifications as the spec writes them -/

/-- One term `c:p.q` of a mapping specification, each number as its text. -/
structure term_t where
  c : CStr
  p : CStr
  q : CStr
deriving DecidableEq, Repr

/-- A non-negative decimal integer as text: one or more decimal digits. -/
def is_decimal (s : CStr) : Bool :=
  !s.isEmpty && s.all isdigit

/-- The number a run of decimal digits denotes, continuing from `acc`. -/
def decimal_from (acc : Nat) : CStr → Nat
  | [] => acc
  | c :: cs => decimal_from (10 * acc + digit_value c) cs

/-- The number a run of decimal digits denotes. -/
def decimal_value (s : CStr) : Nat := decimal_from 0 s

/-- The text of one term. -/
def term_text (t : term_t) : CStr :=
  t.c ++ ':' :: (t.p ++ '.' :: t.q)

/-- The text of a specification: its terms separated by commas. -/
def spec_text : List term_t → CStr
  | [] => []
  | t :: ts =>
    match ts with
    | [] => term_text t
    | _ :: _ => term_text t ++ ',' :: spec_text ts

/-- The mapping entry a term denotes. -/
def term_entry (t : term_t) : l2p_t :=
  ⟨(decimal_value t.c : Int), (decimal_value t.p : Int), (decimal_value t.q : Int)⟩

/-- A term the parser can take: three decimal integers that fit an `int`. -/
def term_ok (t : term_t) : Bool :=
  is_decimal t.c && is_decimal t.p && is_decimal t.q
    && decide (decimal_value t.c ≤ 2147483647)
    && decide (decimal_value t.p ≤ 2147483647)
    && decide (decimal_value t.q ≤ 2147483647)

/-! ## Example platforms and inputs -/

/-- A platform with lcores 0, 1, 2 enabled and master lcore 0: two worker cores. -/
def two_workers : platform_t :=
  { RTE_MAX_LCORE := 8
    max_lcore_le := by decide
    lcore_enabled := fun i => decide (i < 3)
    master_lcore := 0
    posixly_correct := false
    rte_eal_init := fun argv => (0, argv)
    app_init := fun p => some p }

/-- A layout with a 16-byte address array and a 32-entry mapping table. -/
def layout16 : layout_t := ⟨16, 32, 8⟩

/-- The descriptor `init_probe` produces under `layout16`. -/
def fresh16 : probe_t :=
  { collector := { addr := "127.0.0.1".toList, port := 2055 }
    nb_queues := 1
    l2p := List.replicate 32 ⟨0, 0, 0⟩
    rest := List.replicate 8 0 }

/-- Stack contents that are zero in every call. -/
def zero_frames : Nat → frame_t := fun _ => ⟨0, 0, 0, 0⟩

/-! ## Auxiliary definitions for the statements -/

/-- Whether the loop of `app_parse_args` goes on after an option. -/
def is_taken (opt : Int) : Bool :=
  opt == opt_code 'm' || opt == opt_code 'H' || opt == opt_code 'P' || opt == opt_code 'q'

/-- The options `getopt_long` hands to the loop of `app_parse_args`, each with
its `optarg`, in order: up to the end of the options or to the first option
the switch does not take. -/
def delivered : Nat → getopt_t → List (Int × Option CStr)
  | 0, _ => []
  | fuel + 1, st =>
    if (getopt_long optstring st).1 = EOF then []
    else if is_taken (getopt_long optstring st).1 then
      ((getopt_long optstring st).1, (getopt_long optstring st).2.1)
        :: delivered fuel (getopt_long optstring st).2.2
    else [((getopt_long optstring st).1, (getopt_long optstring st).2.1)]

/-- Whether an event is a worker launch. -/
def is_launch : Event → Bool
  | Event.remote_launch _ _ _ => true
  | _ => false

/-- The worker launches of a run, in order. -/
def launches (tr : List Event) : List Event := tr.filter is_launch

/-- The input after a number does not go on with a digit. -/
def stops : CStr → Prop
  | [] => True
  | c :: _ => isdigit c = false

/-- The log lines `parse_app_l2p` writes after counting `idx` entries. -/
def l2p_log (P : platform_t) (idx : Nat) : List Event :=
  if idx ≠ (lcore_foreach_slave P).length then
    [Event.init_log_err (((lcore_foreach_slave P).length : Int) - 1) ((idx : Int) - 1)]
  else []

/-- A specification of eleven well-formed terms with distinct core ids; its
text is 67 characters long. -/
def eleven_terms : List term_t :=
  [⟨"1".toList, "0".toList, "0".toList⟩, ⟨"2".toList, "0".toList, "0".toList⟩,
   ⟨"3".toList, "0".toList, "0".toList⟩, ⟨"4".toList, "0".toList, "0".toList⟩,
   ⟨"5".toList, "0".toList, "0".toList⟩, ⟨"6".toList, "0".toList, "0".toList⟩,
   ⟨"7".toList, "0".toList, "0".toList⟩, ⟨"8".toList, "0".toList, "0".toList⟩,
   ⟨"9".toList, "0".toList, "0".toList⟩, ⟨"10".toList, "0".toList, "0".toList⟩,
   ⟨"11".toList, "0".toList, "0".toList⟩]

/-- The one term of the specification `2147483648:0.0`, whose core id is
`INT_MAX + 1`. -/
def wide_terms : List term_t :=
  [⟨"2147483648".toList, "0".toList, "0".toList⟩]

/-- The two terms of the specification `1:0.0,2:0.1`. -/
def two_terms : List term_t :=
  [⟨"1".toList, "0".toList, "0".toList⟩, ⟨"2".toList, "0".toList, "1".toList⟩]

/-- The two terms of the specification `1:0.0,1:0.1`, which repeat core 1. -/
def repeated_terms : List term_t :=
  [⟨"1".toList, "0".toList, "0".toList⟩, ⟨"1".toList, "0".toList, "1".toList⟩]

/-- An event that `parse_app_l2p` can write: its error line. -/
def is_init_log : Event → Bool
  | Event.init_log_err _ _ => true
  | _ => false

/-- The argument vector `prog -H 10.0.0.5 -P 9995 -q 4 -m 1:0.0,2:0.1`. -/
def full_args : List CStr :=
  ["-H".toList, "10.0.0.5".toList, "-P".toList, "9995".toList, "-q".toList, "4".toList,
   "-m".toList, "1:0.0,2:0.1".toList]

/-- Whether a text begins, after optional white space, with a decimal integer:
an optional sign followed by at least one digit. -/
def begins_with_integer (s : CStr) : Bool :=
  match skip_space s with
  | [] => false
  | c :: cs =>
    if c = '-' ∨ c = '+' then
      match cs with
      | [] => false
      | d :: _ => isdigit d
    else isdigit c

/-- The text of a specification made of the given terms: the terms separated
by commas. -/
def join_commas : List CStr → CStr
  | [] => []
  | t :: ts =>
    match ts with
    | [] => t
    | _ :: _ => t ++ ',' :: join_commas ts

/-- A term of a specification as the spec counts them: not empty and without
a comma. -/
def is_term (t : CStr) : Bool :=
  !t.isEmpty && t.all (fun c => c != ',')

/-- The value the call `sscanf(ptr, "%d:%d.%d", &lid, &pid, &qid)` returns: the
number of variables it assigned, in the order `lid`, `pid`, `qid`. -/
def sscanf_l2p_assigned (ptr : CStr) : Nat :=
  match scan_d ptr with
  | none => 0
  | some (_, r1) =>
    match r1 with
    | [] => 1
    | c1 :: r2 =>
      if c1 ≠ ':' then 1 else
      match scan_d r2 with
      | none => 1
      | some (_, r3) =>
        match r3 with
        | [] => 2
        | c2 :: r4 =>
          if c2 ≠ '.' then 2 else
          match scan_d r4 with
          | none => 2
          | some _ => 3

/-- The entries the successive scans of the given terms produce when the
variables start as `lid`, `pid`, `qid`: each scan starts from the variables
the scan before left. -/
def l2p_entries : List CStr → Int → Int → Int → List l2p_t
  | [], _, _, _ => []
  | t :: ts, lid, pid, qid =>
    match sscanf_l2p t lid pid qid with
    | Outcome.ok (a, b, c) => ⟨a, b, c⟩ :: l2p_entries ts a b c
    | Outcome.fault _ => []

/-- The fields named in `e1` by a scan that assigned `n` variables are left as
they are in `e0`: a variable the scan did not assign keeps its value. -/
def carried_over (n : Nat) (e0 e1 : l2p_t) : Prop :=
  (n < 1 → e1.lcore_id = e0.lcore_id) ∧ (n < 2 → e1.port_id = e0.port_id) ∧
    (n < 3 → e1.queue_id = e0.queue_id)

/-- The three terms of the specification `1:0.0,x,3:4`, of which the second
has no number and the third no queue. -/
def broken_terms : List CStr :=
  ["1:0.0".toList, "x".toList, "3:4".toList]

/-- The descriptor `fresh16` after the specification `1:0.0,2:0.1`. -/
def mapped16 : probe_t :=
  { fresh16 with l2p := ⟨1, 0, 0⟩ :: ⟨2, 0, 1⟩ :: List.replicate 30 ⟨0, 0, 0⟩ }

/-- The argument vector elements of a list of options written apart from
their arguments: `-c` followed by the argument, for each option in turn. -/
def option_args : List (Char × CStr) → List CStr
  | [] => []
  | p :: ps => ['-', p.1] :: p.2 :: option_args ps

/-! ## Facts about the libc models -/

theorem isdigit_not_isspace {c : Char} (h : isdigit c = true) : isspace c = false := by
  simp only [isdigit, isspace, Bool.and_eq_true, decide_eq_true_eq, Bool.or_eq_false_iff,
    Bool.and_eq_false_iff, beq_eq_false_iff_ne, decide_eq_false_iff_not] at *
  omega

theorem isdigit_ne_of_toNat {c d : Char} (h : isdigit c = true) (hd : d.toNat < 48) : c ≠ d := by
  intro e
  subst e
  simp only [isdigit, Bool.and_eq_true, decide_eq_true_eq] at h
  omega

theorem skip_space_digit {c : Char} (cs : CStr) (h : isdigit c = true) :
    skip_space (c :: cs) = c :: cs := by
  simp [skip_space, isdigit_not_isspace h]

theorem scan_digits_append (ds rest : CStr) (acc : Nat)
    (hd : ∀ c ∈ ds, isdigit c = true) (hr : stops rest) :
    scan_digits acc (ds ++ rest) = (decimal_from acc ds, rest) := by
  induction ds generalizing acc with
  | nil =>
    cases rest with
    | nil => rfl
    | cons c cs =>
      have : isdigit c = false := hr
      simp [scan_digits, this, decimal_from]
  | cons d ds ih =>
    have h1 : isdigit d = true := hd d (List.mem_cons_self _ _)
    have h2 : ∀ c ∈ ds, isdigit c = true := fun c hc => hd c (List.mem_cons_of_mem _ hc)
    rw [List.cons_append, scan_digits, decimal_from, h1, if_pos rfl]
    exact ih _ h2

theorem is_decimal_iff (s : CStr) :
    is_decimal s = true ↔ s ≠ [] ∧ ∀ c ∈ s, isdigit c = true := by
  cases s <;> simp [is_decimal]

theorem scan_d_decimal (ds rest : CStr) (hd : is_decimal ds = true) (hr : stops rest) :
    scan_d (ds ++ rest) = some ((decimal_value ds : Int), rest) := by
  obtain ⟨hne, hall⟩ := (is_decimal_iff ds).1 hd
  cases ds with
  | nil => exact absurd rfl hne
  | cons d ds =>
    have h1 : isdigit d = true := hall d (List.mem_cons_self _ _)
    have hm : d ≠ '-' := isdigit_ne_of_toNat h1 (by decide)
    have hp : d ≠ '+' := isdigit_ne_of_toNat h1 (by decide)
    have hs := scan_digits_append (d :: ds) rest 0 hall hr
    simp only [List.cons_append] at hs
    simp only [scan_d, List.cons_append, skip_space_digit _ h1, hm, hp, if_false, scan_unsigned,
      h1, if_true, hs, Option.map_some', decimal_value]

theorem stops_nil : stops [] := trivial

theorem stops_cons {c : Char} (cs : CStr) (h : isdigit c = false) : stops (c :: cs) := h

theorem in_int_of_le (n : Nat) (h : n ≤ 2147483647) : in_int (n : Int) = true := by
  simp only [in_int, INT_MIN, INT_MAX, Bool.and_eq_true, decide_eq_true_eq]
  omega

theorem term_ok_iff (t : term_t) :
    term_ok t = true ↔
      (is_decimal t.c = true ∧ is_decimal t.p = true ∧ is_decimal t.q = true) ∧
      (decimal_value t.c ≤ 2147483647 ∧ decimal_value t.p ≤ 2147483647 ∧
        decimal_value t.q ≤ 2147483647) := by
  simp only [term_ok, Bool.and_eq_true, decide_eq_true_eq]
  tauto

theorem sscanf_l2p_term (t : term_t) (lid pid qid : Int) (h : term_ok t = true) :
    sscanf_l2p (term_text t) lid pid qid =
      Outcome.ok ((decimal_value t.c : Int), (decimal_value t.p : Int),
        (decimal_value t.q : Int)) := by
  obtain ⟨⟨hc, hp, hq⟩, hvc, hvp, hvq⟩ := (term_ok_iff t).1 h
  have e1 := scan_d_decimal t.c (':' :: (t.p ++ '.' :: t.q)) hc (stops_cons _ (by decide))
  have e2 := scan_d_decimal t.p ('.' :: t.q) hp (stops_cons _ (by decide))
  have e3 := scan_d_decimal t.q [] hq stops_nil
  rw [List.append_nil] at e3
  simp [sscanf_l2p, term_text, e1, e2, e3, in_int_of_le _ hvc, in_int_of_le _ hvp,
    in_int_of_le _ hvq]

theorem comma_delim : ",".toList = [','] := rfl

theorem strtok_token (tok more : CStr) (hne : tok ≠ []) (hc : ∀ c ∈ tok, c ≠ ',') :
    strtok (tok ++ ',' :: more) [','] = some (tok, more) := by
  have key : ∀ (s : CStr), (∀ c ∈ s, c ≠ ',') →
      (s ++ ',' :: more).takeWhile (fun x => !([','].elem x)) = s ∧
      (s ++ ',' :: more).dropWhile (fun x => !([','].elem x)) = ',' :: more := by
    intro s hs
    induction s with
    | nil => simp [List.takeWhile, List.dropWhile]
    | cons a s ih =>
      have ha : a ≠ ',' := hs a (List.mem_cons_self _ _)
      have hs1 : ∀ c ∈ s, c ≠ ',' := fun c h => hs c (List.mem_cons_of_mem _ h)
      obtain ⟨i1, i2⟩ := ih hs1
      have pa : (!([','].elem a)) = true := by simp [ha]
      simp only [List.cons_append, List.takeWhile_cons, List.dropWhile_cons, pa, if_true, i1, i2,
        and_self]
  cases tok with
  | nil => exact absurd rfl hne
  | cons a s =>
    have ha : a ≠ ',' := hc a (List.mem_cons_self _ _)
    obtain ⟨k1, k2⟩ := key (a :: s) hc
    simp only [List.cons_append] at k1 k2
    simp only [strtok, List.cons_append]
    have hd : List.dropWhile (fun x => [','].elem x) (a :: (s ++ ',' :: more))
        = a :: (s ++ ',' :: more) := by
      simp [List.dropWhile, ha]
    rw [hd]
    simp only [k1, k2, List.drop_one, List.tail_cons]

theorem strtok_last (tok : CStr) (hne : tok ≠ []) (hc : ∀ c ∈ tok, c ≠ ',') :
    strtok tok [','] = some (tok, []) := by
  have key : ∀ (s : CStr), (∀ c ∈ s, c ≠ ',') →
      s.takeWhile (fun x => !([','].elem x)) = s ∧
      s.dropWhile (fun x => !([','].elem x)) = [] := by
    intro s hs
    induction s with
    | nil => simp
    | cons a s ih =>
      have ha : a ≠ ',' := hs a (List.mem_cons_self _ _)
      have hs1 : ∀ c ∈ s, c ≠ ',' := fun c h => hs c (List.mem_cons_of_mem _ h)
      obtain ⟨i1, i2⟩ := ih hs1
      have pa : (!([','].elem a)) = true := by simp [ha]
      simp only [List.cons_append, List.takeWhile_cons, List.dropWhile_cons, pa, if_true, i1, i2,
        and_self]
  cases tok with
  | nil => exact absurd rfl hne
  | cons a s =>
    have ha : a ≠ ',' := hc a (List.mem_cons_self _ _)
    obtain ⟨k1, k2⟩ := key (a :: s) hc
    simp only [strtok]
    have hd : List.dropWhile (fun x => [','].elem x) (a :: s) = a :: s := by
      simp [List.dropWhile, ha]
    rw [hd]
    simp only [k1, k2, List.drop_nil]

theorem strtok_nil (delim : CStr) : strtok [] delim = none := rfl

theorem is_decimal_no_comma {s : CStr} (h : is_decimal s = true) : ∀ c ∈ s, c ≠ ',' :=
  fun c hc => isdigit_ne_of_toNat (((is_decimal_iff s).1 h).2 c hc) (by decide)

theorem term_text_no_comma (t : term_t) (h : term_ok t = true) :
    ∀ c ∈ term_text t, c ≠ ',' := by
  obtain ⟨⟨hc, hp, hq⟩, _⟩ := (term_ok_iff t).1 h
  intro c hmem
  simp only [term_text, List.mem_append, List.mem_cons] at hmem
  rcases hmem with h1 | h1 | h1 | h1 | h1
  · exact is_decimal_no_comma hc c h1
  · rw [h1]; decide
  · exact is_decimal_no_comma hp c h1
  · rw [h1]; decide
  · exact is_decimal_no_comma hq c h1

theorem term_text_ne_nil (t : term_t) : term_text t ≠ [] := by
  simp [term_text]

theorem strtok_spec_text (t : term_t) (ts : List term_t) (h : term_ok t = true) :
    strtok (spec_text (t :: ts)) ",".toList = some (term_text t, spec_text ts) := by
  rw [comma_delim]
  cases ts with
  | nil => exact strtok_last _ (term_text_ne_nil t) (term_text_no_comma t h)
  | cons u us =>
    exact strtok_token _ _ (term_text_ne_nil t) (term_text_no_comma t h)

theorem length_le_spec_text (ts : List term_t) : ts.length ≤ (spec_text ts).length := by
  induction ts with
  | nil => simp
  | cons t ts ih =>
    cases ts with
    | nil =>
      have := term_text_ne_nil t
      have : 0 < (term_text t).length := List.length_pos.2 this
      simpa [spec_text] using this
    | cons u us =>
      simp only [spec_text, List.length_append, List.length_cons] at ih ⊢
      omega

theorem l2p_loop_terms (ts : List term_t) :
    ∀ (fuel : Nat) (probe : probe_t) (idx : Nat) (lid pid qid : Int),
      (∀ t ∈ ts, term_ok t = true) → ts.length < fuel →
      idx + ts.length ≤ probe.l2p.length →
      l2p_loop fuel (spec_text ts) probe idx lid pid qid =
        Outcome.ok
          ({ probe with
              l2p := probe.l2p.take idx ++ ts.map term_entry
                ++ probe.l2p.drop (idx + ts.length) },
            idx + ts.length) := by
  induction ts with
  | nil =>
    intro fuel probe idx lid pid qid _ hf _
    cases fuel with
    | zero => omega
    | succ n =>
      simp [l2p_loop, spec_text, strtok_nil]
  | cons t ts ih =>
    intro fuel probe idx lid pid qid hok hf hcap
    have ht : term_ok t = true := hok t (List.mem_cons_self _ _)
    have hts : ∀ u ∈ ts, term_ok u = true := fun u hu => hok u (List.mem_cons_of_mem _ hu)
    simp only [List.length_cons] at hf hcap
    cases fuel with
    | zero => omega
    | succ n =>
      have hidx : idx < probe.l2p.length := by omega
      rw [l2p_loop, strtok_spec_text t ts ht]
      simp only [sscanf_l2p_term t lid pid qid ht, l2p_store, hidx, if_true]
      rw [ih n _ (idx + 1) _ _ _ hts (by omega) (by simp only [List.length_set]; omega)]
      simp only [List.length_cons, List.map_cons, term_entry]
      congr 2
      · congr 1
        rw [List.set_eq_take_append_cons_drop, if_pos hidx]
        rw [List.take_append_eq_append_take, List.drop_append_eq_append_drop]
        simp [List.length_take, Nat.min_eq_left (Nat.le_of_lt hidx), Nat.add_assoc,
          Nat.add_comm 1]
        have e1 : idx + 1 - idx = 1 := by omega
        have e2 : idx + (ts.length + 1) - idx = ts.length + 1 := by omega
        simp [e1, e2, List.take_take, Nat.add_assoc]
      · omega

theorem parse_app_l2p_terms (P : platform_t) (fr : frame_t) (probe : probe_t)
    (terms : List term_t) (hne : terms ≠ []) (hok : ∀ t ∈ terms, term_ok t = true)
    (hlen : (spec_text terms).length ≤ 63) (hcap : terms.length ≤ probe.l2p.length) :
    parse_app_l2p P fr probe (spec_text terms) =
      Outcome.ok
        ({ probe with l2p := terms.map term_entry ++ probe.l2p.drop terms.length },
          l2p_log P terms.length) := by
  cases terms with
  | nil => exact absurd rfl hne
  | cons t ts =>
    have ht : term_ok t = true := hok t (List.mem_cons_self _ _)
    have hts : ∀ u ∈ ts, term_ok u = true := fun u hu => hok u (List.mem_cons_of_mem _ hu)
    simp only [List.length_cons] at hcap
    have h0 : 0 < probe.l2p.length := by omega
    have hbuf : ¬ 64 < (spec_text (t :: ts)).length + 1 := by omega
    rw [parse_app_l2p, if_neg hbuf, strtok_spec_text t ts ht]
    simp only [sscanf_l2p_term t _ _ _ ht, l2p_store, h0, if_true]
    rw [l2p_loop_terms ts _ _ 1 _ _ _ hts (Nat.lt_succ_of_le (length_le_spec_text ts))
      (by simp only [List.length_set]; omega)]
    simp only [l2p_log, List.length_cons, List.map_cons, term_entry, Nat.add_comm 1]
    have e : (List.take 1 (probe.l2p.set 0 ⟨(decimal_value t.c : Int), (decimal_value t.p : Int),
        (decimal_value t.q : Int)⟩) ++ List.map term_entry ts
          ++ List.drop (ts.length + 1) (probe.l2p.set 0 ⟨(decimal_value t.c : Int),
            (decimal_value t.p : Int), (decimal_value t.q : Int)⟩))
        = (⟨(decimal_value t.c : Int), (decimal_value t.p : Int), (decimal_value t.q : Int)⟩
            :: List.map term_entry ts) ++ List.drop (ts.length + 1) probe.l2p := by
      cases hp : probe.l2p with
      | nil => rw [hp] at h0; simp at h0
      | cons a l => simp [term_entry]
    simp only [e, term_entry]
    split <;> rfl

/-- C1, counterexample: the one-term specification `2147483648:0.0` is made
of non-negative decimal integers, yet on a freshly initialised descriptor
`parse_app_l2p` does not write the entry (2147483648, 0, 0): the `%d`
conversion into the `int` `lid` cannot hold the core id. Likewise the
eleven-term specification `1:0.0,2:0.0,...,11:0.0`, with pairwise distinct
core ids, is 67 characters long and does not fit the 64-byte `temp`. -/
theorem parse_app_l2p_spec_out_of_range :
    init_probe layout16 fresh16 = Outcome.ok fresh16 ∧
    (∀ t ∈ wide_terms, is_decimal t.c = true ∧ is_decimal t.p = true ∧ is_decimal t.q = true) ∧
    spec_text wide_terms = "2147483648:0.0".toList ∧
    parse_app_l2p two_workers (zero_frames 0) fresh16 (spec_text wide_terms)
      = Outcome.fault Fault.int_overflow ∧
    (∀ t ∈ eleven_terms, is_decimal t.c = true ∧ is_decimal t.p = true ∧ is_decimal t.q = true) ∧
    (eleven_terms.map (fun t => decimal_value t.c)).Nodup ∧
    spec_text eleven_terms
      = "1:0.0,2:0.0,3:0.0,4:0.0,5:0.0,6:0.0,7:0.0,8:0.0,9:0.0,10:0.0,11:0.0".toList ∧
    parse_app_l2p two_workers (zero_frames 0) fresh16 (spec_text eleven_terms)
      = Outcome.fault Fault.buffer_overflow := by
  refine ⟨rfl, by decide, by decide, by decide, by decide, by decide, by decide, by decide⟩

/-- C1, amended: for every specification of n >= 1 well-formed terms (decimal
integers that fit an `int`) whose text has at most 63 characters and whose
terms fit the mapping array, `parse_app_l2p` on a freshly initialised
descriptor returns, writes the n entries in input order at indices 0..n-1 with
`lcore_id = ci`, `port_id = pi`, `queue_id = qi`, leaves the other entries zero
and the other fields untouched, and counts n entries for the comparison with
the worker cores. -/
theorem parse_app_l2p_valid_spec (P : platform_t) (L : layout_t) (fr : frame_t)
    (p0 probe : probe_t) (terms : List term_t)
    (hinit : init_probe L p0 = Outcome.ok probe)
    (hne : terms ≠ []) (hok : ∀ t ∈ terms, term_ok t = true)
    (hlen : (spec_text terms).length ≤ 63) (hcap : terms.length ≤ L.l2p_size) :
    ∃ probe1 log,
      parse_app_l2p P fr probe (spec_text terms) = Outcome.ok (probe1, log) ∧
      probe1.l2p = terms.map term_entry
        ++ List.replicate (L.l2p_size - terms.length) ⟨0, 0, 0⟩ ∧
      (∀ i t, terms.get? i = some t →
        ∃ e, probe1.l2p.get? i = some e ∧
          e.lcore_id = (decimal_value t.c : Int) ∧
          e.port_id = (decimal_value t.p : Int) ∧
          e.queue_id = (decimal_value t.q : Int)) ∧
      probe1.collector = probe.collector ∧ probe1.nb_queues = probe.nb_queues ∧
      probe1.rest = probe.rest ∧
      log = l2p_log P terms.length := by
  have hp : probe.l2p = List.replicate L.l2p_size ⟨0, 0, 0⟩ := by
    unfold init_probe at hinit
    split at hinit
    · injection hinit with h
      rw [← h]
    · exact Outcome.noConfusion hinit
  have hcap1 : terms.length ≤ probe.l2p.length := by
    rw [hp, List.length_replicate]
    exact hcap
  refine ⟨_, _, parse_app_l2p_terms P fr probe terms hne hok hlen hcap1, ?_, ?_, rfl, rfl, rfl,
    rfl⟩
  · simp only [hp, List.drop_replicate]
  · intro i t hi
    refine ⟨term_entry t, ?_, rfl, rfl, rfl⟩
    have hl : i < terms.length := by
      rcases Nat.lt_or_ge i terms.length with h | h
      · exact h
      · rw [List.get?_eq_none.2 h] at hi
        exact Option.noConfusion hi
    simp only [List.get?_eq_getElem?] at hi ⊢
    rw [List.getElem?_append_left (by simpa using hl), List.getElem?_map, hi]
    rfl

/-- C1, amended, at the specification `1:0.0,2:0.1` on a fresh descriptor. -/
theorem parse_app_l2p_valid_spec_witness :
    ∃ probe1 log,
      parse_app_l2p two_workers (zero_frames 0) fresh16 (spec_text two_terms)
        = Outcome.ok (probe1, log) ∧
      probe1.l2p = two_terms.map term_entry
        ++ List.replicate (layout16.l2p_size - two_terms.length) ⟨0, 0, 0⟩ ∧
      (∀ i t, two_terms.get? i = some t →
        ∃ e, probe1.l2p.get? i = some e ∧
          e.lcore_id = (decimal_value t.c : Int) ∧
          e.port_id = (decimal_value t.p : Int) ∧
          e.queue_id = (decimal_value t.q : Int)) ∧
      probe1.collector = fresh16.collector ∧ probe1.nb_queues = fresh16.nb_queues ∧
      probe1.rest = fresh16.rest ∧
      log = l2p_log two_workers two_terms.length :=
  parse_app_l2p_valid_spec two_workers layout16 (zero_frames 0) fresh16 fresh16 two_terms
    rfl (by decide) (by decide) (by decide) (by decide)

/-- C2: whatever the descriptor held before, `init_probe` leaves the collector
address `"127.0.0.1"`, the collector port 2055, the queue count 1, every
mapping entry zero and every other byte zero (the address array must hold the
ten bytes of the default address). -/
theorem init_probe_defaults (L : layout_t) (p : probe_t) (h : 10 ≤ L.addr_size) :
    ∃ probe, init_probe L p = Outcome.ok probe ∧
      probe.collector.addr = "127.0.0.1".toList ∧
      probe.collector.port = 2055 ∧
      probe.nb_queues = 1 ∧
      probe.l2p.length = L.l2p_size ∧
      (∀ e ∈ probe.l2p, e.lcore_id = 0 ∧ e.port_id = 0 ∧ e.queue_id = 0) ∧
      probe.rest.length = L.rest_size ∧
      (∀ b ∈ probe.rest, b = 0) := by
  refine ⟨_, if_pos h, rfl, rfl, rfl, List.length_replicate _ _, ?_, List.length_replicate _ _, ?_⟩
  · intro e he
    rw [List.eq_of_mem_replicate he]
    exact ⟨rfl, rfl, rfl⟩
  · intro b hb
    exact List.eq_of_mem_replicate hb

/-- C2 at a descriptor that holds other values, under `layout16`. -/
theorem init_probe_defaults_witness :
    ∃ probe,
      init_probe layout16 ⟨⟨"10.0.0.5".toList, 9995⟩, 4, [⟨1, 0, 0⟩, ⟨2, 0, 1⟩], [7]⟩
        = Outcome.ok probe ∧
      probe.collector.addr = "127.0.0.1".toList ∧
      probe.collector.port = 2055 ∧
      probe.nb_queues = 1 ∧
      probe.l2p.length = layout16.l2p_size ∧
      (∀ e ∈ probe.l2p, e.lcore_id = 0 ∧ e.port_id = 0 ∧ e.queue_id = 0) ∧
      probe.rest.length = layout16.rest_size ∧
      (∀ b ∈ probe.rest, b = 0) :=
  init_probe_defaults layout16 _ (by decide)

/-- C3, the code at the failing input: with two worker cores, parsing `1:0.0`
counts one entry and two cores, and the error line it writes carries
`--lcore_count` and `--idx`, that is 1 and 0, not 2 and 1. -/
theorem parse_app_l2p_mismatch_off_by_one (fr : frame_t) :
    (lcore_foreach_slave two_workers).length = 2 ∧
    ∃ probe1,
      parse_app_l2p two_workers fr fresh16 "1:0.0".toList
        = Outcome.ok (probe1, [Event.init_log_err 1 0]) ∧
      probe1.l2p.take 2 = [⟨1, 0, 0⟩, ⟨0, 0, 0⟩] := by
  refine ⟨by decide, ?_⟩
  have h := parse_app_l2p_terms two_workers fr fresh16 [⟨"1".toList, "0".toList, "0".toList⟩]
    (by simp) (by decide) (by decide) (by decide)
  exact ⟨_, h, by decide⟩

/-- C7, the code at the failing input: on the empty specification the first
`strtok` gives a null pointer, which `parse_app_l2p` hands to `sscanf`; no
entry count of 0 is ever produced and no mismatch is logged. -/
theorem parse_app_l2p_empty_spec (P : platform_t) (fr : frame_t) (probe : probe_t) :
    parse_app_l2p P fr probe [] = Outcome.fault Fault.null_pointer := by
  rfl

/-- C6, counterexample: with two worker cores the specification `1:0.0,1:0.1`,
whose two terms both name core 1, is taken without any error, and entries 0
and 1 of the table then share `lcore_id` 1. -/
theorem parse_app_l2p_takes_repeated_core :
    spec_text repeated_terms = "1:0.0,1:0.1".toList ∧
    (lcore_foreach_slave two_workers).length = 2 ∧
    parse_app_l2p two_workers (zero_frames 0) fresh16 "1:0.0,1:0.1".toList
      = Outcome.ok
          ({ fresh16 with l2p := ⟨1, 0, 0⟩ :: ⟨1, 0, 1⟩ :: List.replicate 30 ⟨0, 0, 0⟩ }, []) := by
  refine ⟨by decide, by decide, by decide⟩

/-- C6, amended: `parse_app_l2p` has no check on repeated core ids. Every
well-formed specification that fits the buffers and has as many terms as there
are worker cores is taken without an error line, whether or not core ids
repeat, and the `lcore_id`s of the first n entries are the core ids as
written, repetitions included. -/
theorem parse_app_l2p_no_duplicate_check (P : platform_t) (fr : frame_t) (probe : probe_t)
    (terms : List term_t) (hne : terms ≠ []) (hok : ∀ t ∈ terms, term_ok t = true)
    (hlen : (spec_text terms).length ≤ 63) (hcap : terms.length ≤ probe.l2p.length)
    (hcount : terms.length = (lcore_foreach_slave P).length) :
    ∃ probe1,
      parse_app_l2p P fr probe (spec_text terms) = Outcome.ok (probe1, []) ∧
      (probe1.l2p.take terms.length).map (fun e => e.lcore_id)
        = terms.map (fun t => (decimal_value t.c : Int)) := by
  have h := parse_app_l2p_terms P fr probe terms hne hok hlen hcap
  have hl : l2p_log P terms.length = [] := by
    simp [l2p_log, hcount]
  rw [hl] at h
  refine ⟨_, h, ?_⟩
  simp only [List.take_append_eq_append_take, List.length_map, Nat.sub_self, List.take_zero,
    List.append_nil, List.map_take, List.map_map]
  rw [List.take_of_length_le (by simp)]
  rfl

/-- C6, amended, at the specification `1:0.0,1:0.1` with two worker cores. -/
theorem parse_app_l2p_no_duplicate_check_witness :
    ∃ probe1,
      parse_app_l2p two_workers (zero_frames 0) fresh16 (spec_text repeated_terms)
        = Outcome.ok (probe1, []) ∧
      (probe1.l2p.take repeated_terms.length).map (fun e => e.lcore_id)
        = repeated_terms.map (fun t => (decimal_value t.c : Int)) :=
  parse_app_l2p_no_duplicate_check two_workers (zero_frames 0) fresh16 repeated_terms
    (by decide) (by decide) (by decide) (by decide) (by decide)

/-! ## Facts about the option scanner -/

theorem opt_code_inj {a b : Char} (h : opt_code a = opt_code b) : a = b := by
  have e : a.toNat = b.toNat := by
    simpa [opt_code] using h
  rw [← Char.ofNat_toNat a, ← Char.ofNat_toNat b, e]

theorem is_taken_iff (opt : Int) :
    is_taken opt = true ↔
      opt = opt_code 'm' ∨ opt = opt_code 'H' ∨ opt = opt_code 'P' ∨ opt = opt_code 'q' := by
  simp only [is_taken, Bool.or_eq_true, beq_iff_eq, or_assoc]

theorem not_taken_unknown : is_taken (opt_code '?') = false := by decide

theorem not_taken_EOF : is_taken EOF = false := by decide

theorem is_taken_code {c : Char} (h : is_taken (opt_code c) = true) :
    opt_lookup optstring c = some true ∧ c ≠ ':' ∧ c ≠ ';' := by
  rcases (is_taken_iff _).1 h with h | h | h | h <;>
    (rw [opt_code_inj h]; decide)

theorem getopt_short_taken (st : getopt_t) (e : CStr) (r : List CStr) (c : Char) (nc : CStr)
    (h : is_taken (getopt_short optstring st e r c nc).1 = true) :
    (∃ a, (getopt_short optstring st e r c nc).2.1 = some a) ∧
    (getopt_short optstring st e r c nc).2.2.rest.length ≤ r.length ∧
    (getopt_short optstring st e r c nc).2.2.nextchar = [] := by
  unfold getopt_short at h ⊢
  cases hl : opt_lookup optstring c with
  | none =>
    rw [hl] at h
    simp only [not_taken_unknown, not_taken_EOF, Bool.false_eq_true] at h
  | some has_arg =>
    rw [hl] at h
    simp only at h ⊢
    by_cases hc : c = ':' ∨ c = ';'
    · rw [if_pos hc] at h
      simp only [not_taken_unknown, not_taken_EOF, Bool.false_eq_true] at h
    · rw [if_neg hc] at h ⊢
      cases has_arg with
      | false =>
        simp only [Bool.false_eq_true, if_false] at h
        have := (is_taken_code h).1
        rw [hl] at this
        exact absurd this (by decide)
      | true =>
        simp only [if_true] at h ⊢
        by_cases hn : nc ≠ []
        · rw [if_pos hn]
          exact ⟨⟨nc, rfl⟩, Nat.le_refl _, rfl⟩
        · rw [if_neg hn] at h ⊢
          cases r with
          | nil => simp only [not_taken_unknown, not_taken_EOF, Bool.false_eq_true] at h
          | cons a r1 => exact ⟨⟨a, rfl⟩, Nat.le_succ _, rfl⟩

theorem getopt_long_taken (st : getopt_t)
    (h : is_taken (getopt_long optstring st).1 = true) :
    (∃ a, (getopt_long optstring st).2.1 = some a) ∧
    (getopt_long optstring st).2.2.rest.length < st.rest.length ∧
    (getopt_long optstring st).2.2.nextchar = [] := by
  have hsp : ∀ (b : Bool) (l : List CStr),
      (if b then (([] : List CStr), l) else l.span NONOPTION_P).2.length ≤ l.length := by
    intro b l
    cases b with
    | true => exact Nat.le_refl _
    | false =>
      simp only [Bool.false_eq_true, if_false, List.span_eq_take_drop]
      exact (List.dropWhile_suffix _).length_le
  have hsp1 := hsp st.posixly_correct st.rest
  unfold getopt_long at h ⊢
  split at h
  · next c nc e r hn hr =>
    have := getopt_short_taken st e r c nc h
    rw [hr]
    simp only [List.length_cons]
    exact ⟨this.1, Nat.lt_succ_of_le this.2.1, this.2.2⟩
  · simp only at h ⊢
    generalize hq : (if st.posixly_correct = true then (([] : List CStr), st.rest)
      else List.span NONOPTION_P st.rest) = sp at h hsp1 ⊢
    obtain ⟨s1, s2⟩ := sp
    simp only at h hsp1 ⊢
    cases s2 with
    | nil => simp only [not_taken_unknown, not_taken_EOF, Bool.false_eq_true] at h
    | cons e r =>
      simp only at h ⊢
      simp only [List.length_cons] at hsp1
      by_cases h1 : e = "--".toList
      · rw [if_pos h1] at h
        simp only [not_taken_unknown, not_taken_EOF, Bool.false_eq_true] at h
      · rw [if_neg h1] at h ⊢
        by_cases h2 : NONOPTION_P e = true
        · rw [if_pos h2] at h
          simp only [not_taken_unknown, not_taken_EOF, Bool.false_eq_true] at h
        · rw [if_neg h2] at h ⊢
          split at h
          · next x c nc =>
            by_cases h3 : c = '-'
            · rw [if_pos h3] at h
              simp only [not_taken_unknown, not_taken_EOF, Bool.false_eq_true] at h
            · rw [if_neg h3] at h
              simp only [if_neg h3]
              have := getopt_short_taken _ _ r c nc h
              exact ⟨this.1, by omega, this.2.2⟩
          · simp only [not_taken_unknown, not_taken_EOF, Bool.false_eq_true] at h

/-! ## Facts about the handlers -/

theorem strtok_length (s delim tok saved : CStr) (h : strtok s delim = some (tok, saved)) :
    saved.length < s.length := by
  unfold strtok at h
  have h1 := (List.dropWhile_suffix (l := s) (fun x => delim.elem x)).length_le
  cases hd : List.dropWhile (fun x => delim.elem x) s with
  | nil =>
    rw [hd] at h
    exact Option.noConfusion h
  | cons c cs =>
    rw [hd] at h h1
    simp only [Option.some.injEq, Prod.mk.injEq] at h
    have h2 := (List.dropWhile_suffix (l := c :: cs) (fun x => !delim.elem x)).length_le
    rw [← h.2, List.length_drop]
    simp only [List.length_cons] at h1 h2 ⊢
    omega

theorem l2p_store_frame (probe probe1 : probe_t) (idx : Nat) (lid pid qid : Int)
    (h : l2p_store probe idx lid pid qid = Outcome.ok probe1) :
    probe1.collector = probe.collector ∧ probe1.nb_queues = probe.nb_queues ∧
    probe1.rest = probe.rest ∧ probe1.l2p.length = probe.l2p.length := by
  unfold l2p_store at h
  split at h
  · injection h with h
    rw [← h]
    exact ⟨rfl, rfl, rfl, List.length_set _ _ _⟩
  · exact Outcome.noConfusion h

theorem sscanf_l2p_fuel (ptr : CStr) (lid pid qid : Int) (e : Fault)
    (h : sscanf_l2p ptr lid pid qid = Outcome.fault e) : e ≠ Fault.out_of_fuel := by
  unfold sscanf_l2p at h
  repeat' split at h
  all_goals first
    | exact Outcome.noConfusion h
    | (injection h with h; rw [← h]; decide)

theorem l2p_store_fuel (probe : probe_t) (idx : Nat) (lid pid qid : Int) (e : Fault)
    (h : l2p_store probe idx lid pid qid = Outcome.fault e) : e ≠ Fault.out_of_fuel := by
  unfold l2p_store at h
  split at h
  · exact Outcome.noConfusion h
  · injection h with h
    rw [← h]
    decide

theorem l2p_loop_fuel (fuel : Nat) :
    ∀ (saved : CStr) (probe : probe_t) (idx : Nat) (lid pid qid : Int) (e : Fault),
      saved.length < fuel →
      l2p_loop fuel saved probe idx lid pid qid = Outcome.fault e → e ≠ Fault.out_of_fuel := by
  induction fuel with
  | zero => intro saved probe idx lid pid qid e h; omega
  | succ n ih =>
    intro saved probe idx lid pid qid e h hf
    rw [l2p_loop] at hf
    cases hs : strtok saved ",".toList with
    | none =>
      rw [hs] at hf
      exact Outcome.noConfusion hf
    | some ts =>
      obtain ⟨ptr, saved1⟩ := ts
      have hl := strtok_length _ _ _ _ hs
      rw [hs] at hf
      simp only at hf
      cases h1 : sscanf_l2p ptr lid pid qid with
      | fault f =>
        rw [h1] at hf
        injection hf with hf
        rw [← hf]
        exact sscanf_l2p_fuel _ _ _ _ _ h1
      | ok v =>
        obtain ⟨a, b, c⟩ := v
        rw [h1] at hf
        simp only at hf
        cases h2 : l2p_store probe idx a b c with
        | fault f =>
          rw [h2] at hf
          injection hf with hf
          rw [← hf]
          exact l2p_store_fuel _ _ _ _ _ _ h2
        | ok p1 =>
          rw [h2] at hf
          exact ih _ _ _ _ _ _ _ (by omega) hf

theorem l2p_loop_frame (fuel : Nat) :
    ∀ (saved : CStr) (probe : probe_t) (idx : Nat) (lid pid qid : Int) (probe1 : probe_t)
      (idx1 : Nat),
      l2p_loop fuel saved probe idx lid pid qid = Outcome.ok (probe1, idx1) →
      probe1.collector = probe.collector ∧ probe1.nb_queues = probe.nb_queues ∧
      probe1.rest = probe.rest ∧ probe1.l2p.length = probe.l2p.length := by
  induction fuel with
  | zero =>
    intro saved probe idx lid pid qid probe1 idx1 h
    exact Outcome.noConfusion h
  | succ n ih =>
    intro saved probe idx lid pid qid probe1 idx1 h
    rw [l2p_loop] at h
    cases hs : strtok saved ",".toList with
    | none =>
      rw [hs] at h
      simp only [Outcome.ok.injEq, Prod.mk.injEq] at h
      rw [← h.1]
      exact ⟨rfl, rfl, rfl, rfl⟩
    | some ts =>
      obtain ⟨ptr, saved1⟩ := ts
      rw [hs] at h
      simp only at h
      cases h1 : sscanf_l2p ptr lid pid qid with
      | fault f =>
        rw [h1] at h
        exact Outcome.noConfusion h
      | ok v =>
        obtain ⟨a, b, c⟩ := v
        rw [h1] at h
        simp only at h
        cases h2 : l2p_store probe idx a b c with
        | fault f =>
          rw [h2] at h
          exact Outcome.noConfusion h
        | ok p1 =>
          rw [h2] at h
          simp only at h
          obtain ⟨i1, i2, i3, i4⟩ := ih _ _ _ _ _ _ _ _ h
          obtain ⟨j1, j2, j3, j4⟩ := l2p_store_frame _ _ _ _ _ _ h2
          exact ⟨i1.trans j1, i2.trans j2, i3.trans j3, i4.trans j4⟩

theorem parse_app_l2p_frame (P : platform_t) (f : frame_t) (probe probe1 : probe_t) (str : CStr)
    (log : List Event) (h : parse_app_l2p P f probe str = Outcome.ok (probe1, log)) :
    (probe1.collector = probe.collector ∧ probe1.nb_queues = probe.nb_queues ∧
      probe1.rest = probe.rest ∧ probe1.l2p.length = probe.l2p.length) ∧
    ∀ e ∈ log, is_init_log e = true := by
  unfold parse_app_l2p at h
  split at h
  · exact Outcome.noConfusion h
  · cases hs : strtok str ",".toList with
    | none =>
      rw [hs] at h
      exact Outcome.noConfusion h
    | some ts =>
      obtain ⟨ptr, saved⟩ := ts
      rw [hs] at h
      simp only at h
      cases h1 : sscanf_l2p ptr f.lid f.pid f.qid with
      | fault e =>
        rw [h1] at h
        exact Outcome.noConfusion h
      | ok v =>
        obtain ⟨a, b, c⟩ := v
        rw [h1] at h
        simp only at h
        cases h2 : l2p_store probe 0 a b c with
        | fault e =>
          rw [h2] at h
          exact Outcome.noConfusion h
        | ok p1 =>
          rw [h2] at h
          simp only at h
          cases h3 : l2p_loop (saved.length + 1) saved p1 1 a b c with
          | fault e =>
            rw [h3] at h
            exact Outcome.noConfusion h
          | ok w =>
            obtain ⟨p2, idx⟩ := w
            rw [h3] at h
            simp only at h
            obtain ⟨i1, i2, i3, i4⟩ := l2p_loop_frame _ _ _ _ _ _ _ _ _ h3
            obtain ⟨j1, j2, j3, j4⟩ := l2p_store_frame _ _ _ _ _ _ h2
            split at h
            · simp only [Outcome.ok.injEq, Prod.mk.injEq] at h
              rw [← h.1, ← h.2]
              refine ⟨⟨i1.trans j1, i2.trans j2, i3.trans j3, i4.trans j4⟩, ?_⟩
              intro e he
              simp only [List.mem_singleton] at he
              rw [he]
              rfl
            · simp only [Outcome.ok.injEq, Prod.mk.injEq] at h
              rw [← h.1, ← h.2]
              refine ⟨⟨i1.trans j1, i2.trans j2, i3.trans j3, i4.trans j4⟩, ?_⟩
              intro e he
              simp at he

theorem parse_app_l2p_fuel (P : platform_t) (f : frame_t) (probe : probe_t) (str : CStr)
    (e : Fault) (h : parse_app_l2p P f probe str = Outcome.fault e) :
    e ≠ Fault.out_of_fuel := by
  unfold parse_app_l2p at h
  split at h
  · injection h with h
    rw [← h]
    decide
  · cases hs : strtok str ",".toList with
    | none =>
      rw [hs] at h
      injection h with h
      rw [← h]
      decide
    | some ts =>
      obtain ⟨ptr, saved⟩ := ts
      rw [hs] at h
      simp only at h
      cases h1 : sscanf_l2p ptr f.lid f.pid f.qid with
      | fault e1 =>
        rw [h1] at h
        injection h with h
        rw [← h]
        exact sscanf_l2p_fuel _ _ _ _ _ h1
      | ok v =>
        obtain ⟨a, b, c⟩ := v
        rw [h1] at h
        simp only at h
        cases h2 : l2p_store probe 0 a b c with
        | fault e1 =>
          rw [h2] at h
          injection h with h
          rw [← h]
          exact l2p_store_fuel _ _ _ _ _ _ h2
        | ok p1 =>
          rw [h2] at h
          simp only at h
          cases h3 : l2p_loop (saved.length + 1) saved p1 1 a b c with
          | fault e1 =>
            rw [h3] at h
            injection h with h
            rw [← h]
            exact l2p_loop_fuel _ _ _ _ _ _ _ _ (Nat.lt_succ_self _) h3
          | ok w =>
            obtain ⟨p2, idx⟩ := w
            rw [h3] at h
            simp only at h
            split at h <;> exact Outcome.noConfusion h

theorem parse_app_collector_host_fuel (L : layout_t) (probe : probe_t) (str : CStr)
    (e : Fault) (h : parse_app_collector_host L probe str = Outcome.fault e) :
    e ≠ Fault.out_of_fuel := by
  unfold parse_app_collector_host at h
  repeat' split at h
  all_goals first
    | exact Outcome.noConfusion h
    | (injection h with h; rw [← h]; decide)

theorem parse_app_collector_port_fuel (probe : probe_t) (str : CStr)
    (e : Fault) (h : parse_app_collector_port probe str = Outcome.fault e) :
    e ≠ Fault.out_of_fuel := by
  unfold parse_app_collector_port at h
  repeat' split at h
  all_goals first
    | exact Outcome.noConfusion h
    | (injection h with h; rw [← h]; decide)

theorem parse_app_num_queues_fuel (f : frame_t) (probe : probe_t) (str : CStr)
    (e : Fault) (h : parse_app_num_queues f probe str = Outcome.fault e) :
    e ≠ Fault.out_of_fuel := by
  unfold parse_app_num_queues at h
  repeat' split at h
  all_goals first
    | exact Outcome.noConfusion h
    | (injection h with h; rw [← h]; decide)

theorem parse_app_collector_host_frame (L : layout_t) (probe probe1 : probe_t) (str : CStr)
    (h : parse_app_collector_host L probe str = Outcome.ok probe1) :
    probe1.nb_queues = probe.nb_queues ∧ probe1.l2p = probe.l2p ∧ probe1.rest = probe.rest ∧
    probe1.collector.port = probe.collector.port := by
  unfold parse_app_collector_host at h
  split at h
  · injection h with h
    rw [← h]
    exact ⟨rfl, rfl, rfl, rfl⟩
  · split at h
    · injection h with h
      rw [← h]
      exact ⟨rfl, rfl, rfl, rfl⟩
    · exact Outcome.noConfusion h

theorem parse_app_collector_port_frame (probe probe1 : probe_t) (str : CStr)
    (h : parse_app_collector_port probe str = Outcome.ok probe1) :
    probe1.nb_queues = probe.nb_queues ∧ probe1.l2p = probe.l2p ∧ probe1.rest = probe.rest ∧
    probe1.collector.addr = probe.collector.addr := by
  unfold parse_app_collector_port at h
  split at h
  · injection h with h
    rw [← h]
    exact ⟨rfl, rfl, rfl, rfl⟩
  · split at h
    · injection h with h
      rw [← h]
      exact ⟨rfl, rfl, rfl, rfl⟩
    · exact Outcome.noConfusion h

theorem opt_switch_fuel (P : platform_t) (L : layout_t) (f : frame_t) (probe : probe_t)
    (opt : Int) (optarg : Option CStr) (e : Fault)
    (h : opt_switch P L f probe opt optarg = Outcome.fault e) : e ≠ Fault.out_of_fuel := by
  unfold opt_switch at h
  split at h
  · cases optarg with
    | none =>
      injection h with h
      rw [← h]
      decide
    | some a =>
      simp only at h
      cases h1 : parse_app_l2p P f probe a with
      | fault e1 =>
        rw [h1] at h
        injection h with h
        rw [← h]
        exact parse_app_l2p_fuel _ _ _ _ _ h1
      | ok v =>
        rw [h1] at h
        exact Outcome.noConfusion h
  · split at h
    · cases optarg with
      | none =>
        injection h with h
        rw [← h]
        decide
      | some a =>
        simp only at h
        cases h1 : parse_app_collector_host L probe a with
        | fault e1 =>
          rw [h1] at h
          injection h with h
          rw [← h]
          exact parse_app_collector_host_fuel _ _ _ _ h1
        | ok v =>
          rw [h1] at h
          exact Outcome.noConfusion h
    · split at h
      · cases optarg with
        | none =>
          injection h with h
          rw [← h]
          decide
        | some a =>
          simp only at h
          cases h1 : parse_app_collector_port probe a with
          | fault e1 =>
            rw [h1] at h
            injection h with h
            rw [← h]
            exact parse_app_collector_port_fuel _ _ _ h1
          | ok v =>
            rw [h1] at h
            exact Outcome.noConfusion h
      · split at h
        · cases optarg with
          | none =>
            injection h with h
            rw [← h]
            decide
          | some a =>
            simp only at h
            cases h1 : parse_app_num_queues f probe a with
            | fault e1 =>
              rw [h1] at h
              injection h with h
              rw [← h]
              exact parse_app_num_queues_fuel _ _ _ _ h1
            | ok v =>
              rw [h1] at h
              exact Outcome.noConfusion h
        · exact Outcome.noConfusion h

theorem opt_switch_not_taken (P : platform_t) (L : layout_t) (f : frame_t) (probe : probe_t)
    (opt : Int) (optarg : Option CStr) (h : is_taken opt = false) :
    opt_switch P L f probe opt optarg = Outcome.ok none := by
  have h1 : ¬ (opt = opt_code 'm' ∨ opt = opt_code 'H' ∨ opt = opt_code 'P'
      ∨ opt = opt_code 'q') := by
    rw [← is_taken_iff, h]
    exact Bool.false_ne_true
  simp only [not_or] at h1
  unfold opt_switch
  rw [if_neg h1.1, if_neg h1.2.1, if_neg h1.2.2.1, if_neg h1.2.2.2]

/-! ## Facts about the option loop -/

theorem opt_switch_some (P : platform_t) (L : layout_t) (f : frame_t) (probe probe1 : probe_t)
    (opt : Int) (optarg : Option CStr) (log : List Event)
    (h : opt_switch P L f probe opt optarg = Outcome.ok (some (probe1, log))) :
    is_taken opt = true ∧ (∀ e ∈ log, is_init_log e = true) ∧
    ((opt = opt_code 'q' ∧ ∃ a, optarg = some a ∧
        parse_app_num_queues f probe a = Outcome.ok probe1) ∨
      (opt ≠ opt_code 'q' ∧ probe1.nb_queues = probe.nb_queues)) := by
  unfold opt_switch at h
  split at h
  · next hm =>
    cases optarg with
    | none => exact Outcome.noConfusion h
    | some a =>
      simp only at h
      cases h1 : parse_app_l2p P f probe a with
      | fault e1 =>
        rw [h1] at h
        exact Outcome.noConfusion h
      | ok v =>
        obtain ⟨p1, lg⟩ := v
        rw [h1] at h
        simp only [Outcome.ok.injEq, Option.some.injEq, Prod.mk.injEq] at h
        obtain ⟨fr1, fr2⟩ := parse_app_l2p_frame _ _ _ _ _ _ h1
        rw [← h.1, ← h.2]
        refine ⟨(is_taken_iff _).2 (Or.inl hm), fr2, Or.inr ⟨?_, fr1.2.1⟩⟩
        rw [hm]
        decide
  · split at h
    · next hm hH =>
      cases optarg with
      | none => exact Outcome.noConfusion h
      | some a =>
        simp only at h
        cases h1 : parse_app_collector_host L probe a with
        | fault e1 =>
          rw [h1] at h
          exact Outcome.noConfusion h
        | ok p1 =>
          rw [h1] at h
          simp only [Outcome.ok.injEq, Option.some.injEq, Prod.mk.injEq] at h
          rw [← h.1, ← h.2]
          refine ⟨(is_taken_iff _).2 (Or.inr (Or.inl hH)), by simp,
            Or.inr ⟨?_, (parse_app_collector_host_frame _ _ _ _ h1).1⟩⟩
          rw [hH]
          decide
    · split at h
      · next hm hH hP =>
        cases optarg with
        | none => exact Outcome.noConfusion h
        | some a =>
          simp only at h
          cases h1 : parse_app_collector_port probe a with
          | fault e1 =>
            rw [h1] at h
            exact Outcome.noConfusion h
          | ok p1 =>
            rw [h1] at h
            simp only [Outcome.ok.injEq, Option.some.injEq, Prod.mk.injEq] at h
            rw [← h.1, ← h.2]
            refine ⟨(is_taken_iff _).2 (Or.inr (Or.inr (Or.inl hP))), by simp,
              Or.inr ⟨?_, (parse_app_collector_port_frame _ _ _ h1).1⟩⟩
            rw [hP]
            decide
      · split at h
        · next hm hH hP hq =>
          cases optarg with
          | none => exact Outcome.noConfusion h
          | some a =>
            simp only at h
            cases h1 : parse_app_num_queues f probe a with
            | fault e1 =>
              rw [h1] at h
              exact Outcome.noConfusion h
            | ok p1 =>
              rw [h1] at h
              simp only [Outcome.ok.injEq, Option.some.injEq, Prod.mk.injEq] at h
              rw [← h.1, ← h.2]
              exact ⟨(is_taken_iff _).2 (Or.inr (Or.inr (Or.inr hq))), by simp,
                Or.inl ⟨hq, a, rfl, h1⟩⟩
        · simp only [Outcome.ok.injEq] at h
          exact Option.noConfusion h

theorem parse_loop_fuel (P : platform_t) (L : layout_t) (prgname : CStr) (fuel : Nat) :
    ∀ (fr : Nat → frame_t) (st : getopt_t) (probe : probe_t) (out : List Event) (e : Fault),
      st.rest.length < fuel →
      parse_loop P L prgname fuel fr st probe out = Outcome.fault e →
      e ≠ Fault.out_of_fuel := by
  induction fuel with
  | zero => intro fr st probe out e h; omega
  | succ n ih =>
    intro fr st probe out e hlen h
    rw [parse_loop] at h
    split at h
    · exact Outcome.noConfusion h
    · cases hs : opt_switch P L (fr 0) probe (getopt_long optstring st).1
          (getopt_long optstring st).2.1 with
      | fault e1 =>
        rw [hs] at h
        injection h with h
        rw [← h]
        exact opt_switch_fuel _ _ _ _ _ _ _ hs
      | ok v =>
        rw [hs] at h
        cases v with
        | none => exact Outcome.noConfusion h
        | some w =>
          obtain ⟨p1, lg⟩ := w
          simp only at h
          have ht := (opt_switch_some _ _ _ _ _ _ _ _ hs).1
          have hp := (getopt_long_taken st ht).2.1
          exact ih _ _ _ _ _ (by omega) h

theorem parse_loop_ok (P : platform_t) (L : layout_t) (prgname : CStr) (fuel : Nat) :
    ∀ (fr : Nat → frame_t) (st : getopt_t) (probe : probe_t) (out : List Event)
      (r : parse_result),
      parse_loop P L prgname fuel fr st probe out = Outcome.ok r →
      (r.ret = -1 ∨
        (r.ret = (r.optind : Int) - 1 ∧ 1 ≤ r.optind ∧
          r.argv.get? (r.optind - 1) = some prgname)) ∧
      ((∀ e ∈ out, is_launch e = false) → ∀ e ∈ r.out, is_launch e = false) := by
  induction fuel with
  | zero =>
    intro fr st probe out r h
    exact Outcome.noConfusion h
  | succ n ih =>
    intro fr st probe out r h
    rw [parse_loop] at h
    split at h
    · injection h with h
      rw [← h]
      refine ⟨Or.inr ⟨rfl, ?_, ?_⟩, fun ho => ho⟩
      · simp only [getopt_t.optind]
        omega
      · simp only [getopt_t.optind, argv_of, Nat.add_sub_cancel_left, List.get?_eq_getElem?]
        rw [List.getElem?_set_self]
        simp only [List.length_cons, List.length_append]
        omega
    · cases hs : opt_switch P L (fr 0) probe (getopt_long optstring st).1
          (getopt_long optstring st).2.1 with
      | fault e1 =>
        rw [hs] at h
        exact Outcome.noConfusion h
      | ok v =>
        rw [hs] at h
        cases v with
        | none =>
          simp only at h
          injection h with h
          rw [← h]
          refine ⟨Or.inl rfl, ?_⟩
          intro ho e he
          simp only [List.mem_append, List.mem_singleton] at he
          rcases he with he | he
          · exact ho e he
          · rw [he]
            rfl
        | some w =>
          obtain ⟨p1, lg⟩ := w
          simp only at h
          obtain ⟨i1, i2⟩ := ih _ _ _ _ _ h
          refine ⟨i1, ?_⟩
          intro ho
          apply i2
          intro e he
          simp only [List.mem_append] at he
          rcases he with he | he
          · exact ho e he
          · have := (opt_switch_some _ _ _ _ _ _ _ _ hs).2.1 e he
            cases e <;> first | rfl | exact Bool.noConfusion this

theorem parse_app_num_queues_value (f : frame_t) (probe probe1 : probe_t) (a : CStr) (v : Int)
    (rest : CStr) (hs : scan_d a = some (v, rest))
    (h : parse_app_num_queues f probe a = Outcome.ok probe1) : probe1.nb_queues = v := by
  unfold parse_app_num_queues at h
  rw [hs] at h
  simp only at h
  split at h
  · injection h with h
    rw [← h]
  · exact Outcome.noConfusion h

theorem parse_loop_nb_queues (P : platform_t) (L : layout_t) (prgname : CStr) (fuel : Nat) :
    ∀ (fr : Nat → frame_t) (st : getopt_t) (probe : probe_t) (out : List Event)
      (r : parse_result),
      1 ≤ probe.nb_queues →
      parse_loop P L prgname fuel fr st probe out = Outcome.ok r →
      (∀ a, (opt_code 'q', some a) ∈ delivered fuel st →
        ∃ v rest, scan_d a = some (v, rest) ∧ 1 ≤ v) →
      1 ≤ r.probe.nb_queues := by
  induction fuel with
  | zero =>
    intro fr st probe out r _ h
    exact Outcome.noConfusion h
  | succ n ih =>
    intro fr st probe out r hq h hd
    rw [parse_loop] at h
    rw [delivered] at hd
    split at h
    · injection h with h
      rw [← h]
      exact hq
    · next hne =>
      rw [if_neg hne] at hd
      cases hs : opt_switch P L (fr 0) probe (getopt_long optstring st).1
          (getopt_long optstring st).2.1 with
      | fault e1 =>
        rw [hs] at h
        exact Outcome.noConfusion h
      | ok v =>
        rw [hs] at h
        cases v with
        | none =>
          simp only at h
          injection h with h
          rw [← h]
          exact hq
        | some w =>
          obtain ⟨p1, lg⟩ := w
          simp only at h
          obtain ⟨ht, _, hcase⟩ := opt_switch_some _ _ _ _ _ _ _ _ hs
          rw [if_pos ht] at hd
          have hq1 : 1 ≤ p1.nb_queues := by
            rcases hcase with ⟨ho, a, ha, hp⟩ | ⟨_, hp⟩
            · obtain ⟨v, rest, hv, hv1⟩ := hd a (by
                rw [← ho, ← ha]
                exact List.mem_cons_self _ _)
              rw [parse_app_num_queues_value _ _ _ _ _ _ hv hp]
              exact hv1
            · rw [hp]
              exact hq
          exact ih _ _ _ _ _ hq1 h (fun a ha => hd a (List.mem_cons_of_mem _ ha))

theorem parse_loop_not_taken (P : platform_t) (L : layout_t) (prgname : CStr) (fuel : Nat)
    (fr : Nat → frame_t) (st : getopt_t) (probe : probe_t) (out : List Event)
    (hne : (getopt_long optstring st).1 ≠ EOF)
    (h : is_taken (getopt_long optstring st).1 = false) :
    parse_loop P L prgname (fuel + 1) fr st probe out =
      Outcome.ok
        { ret := -1
          optind := (getopt_long optstring st).2.2.optind
          argv := argv_of prgname (getopt_long optstring st).2.2
          probe := probe
          out := out ++ [Event.stdout (app_usage prgname)] } := by
  rw [parse_loop, if_neg hne, opt_switch_not_taken _ _ _ _ _ _ h]

theorem not_taken_lookup {c : Char} (h : is_taken (opt_code c) = false) :
    opt_lookup optstring c = none ∨ c = ':' := by
  have h1 : ¬ (opt_code c = opt_code 'm' ∨ opt_code c = opt_code 'H' ∨ opt_code c = opt_code 'P'
      ∨ opt_code c = opt_code 'q') := by
    rw [← is_taken_iff, h]
    exact Bool.false_ne_true
  simp only [not_or] at h1
  have hm : ¬ 'm' = c := fun e => h1.1 (by rw [e])
  have hH : ¬ 'H' = c := fun e => h1.2.1 (by rw [e])
  have hP : ¬ 'P' = c := fun e => h1.2.2.1 (by rw [e])
  have hq : ¬ 'q' = c := fun e => h1.2.2.2 (by rw [e])
  by_cases hc : ':' = c
  · exact Or.inr hc.symm
  · left
    have e : optstring = ['m', ':', 'H', ':', 'P', ':', 'q', ':'] := rfl
    rw [e]
    simp only [opt_lookup, hm, hH, hP, hq, hc, if_false]

theorem getopt_short_unknown (st : getopt_t) (e : CStr) (r : List CStr) (c : Char) (nc : CStr)
    (h : is_taken (opt_code c) = false) :
    (getopt_short optstring st e r c nc).1 = opt_code '?' := by
  unfold getopt_short
  rcases not_taken_lookup h with hl | hl
  · rw [hl]
  · rw [hl]
    rfl

theorem getopt_long_unknown (st : getopt_t) (c : Char) (nc : CStr) (r : List CStr)
    (hn : st.nextchar = []) (hr : st.rest = ('-' :: c :: nc) :: r)
    (hc : is_taken (opt_code c) = false) (hterm : ¬ (c = '-' ∧ nc = [])) :
    (getopt_long optstring st).1 = opt_code '?' := by
  have hnon : NONOPTION_P ('-' :: c :: nc) = false := by
    simp [NONOPTION_P]
  have hsp : (if st.posixly_correct = true then (([] : List CStr), st.rest)
      else List.span NONOPTION_P st.rest) = ([], ('-' :: c :: nc) :: r) := by
    rw [hr]
    split
    · rfl
    · simp [List.span_eq_take_drop, List.takeWhile, List.dropWhile, hnon]
  have hdd : ¬ ('-' :: c :: nc) = "--".toList := by
    intro e
    have e1 : "--".toList = ['-', '-'] := rfl
    rw [e1] at e
    simp only [List.cons.injEq, true_and] at e
    exact hterm e
  unfold getopt_long
  rw [hn]
  simp only [hsp, if_neg hdd, hnon, Bool.false_eq_true, if_false]
  split
  · rfl
  · exact getopt_short_unknown _ _ _ _ _ hc

/-- C5: whenever `getopt_long` hands the loop of `app_parse_args` an option
that is not one of `m`, `H`, `P`, `q` (an unknown option such as `-z` or `-h`
comes back as `?`), with `probe` the descriptor at that moment and `out` the
output so far, `app_parse_args` prints the usage text, returns -1, and the
descriptor it leaves is `probe` itself. -/
theorem app_parse_args_unknown_option (P : platform_t) (L : layout_t) (prgname : CStr)
    (fuel : Nat) (fr : Nat → frame_t) (st : getopt_t) (probe : probe_t) (out : List Event)
    (hne : (getopt_long optstring st).1 ≠ EOF)
    (h : is_taken (getopt_long optstring st).1 = false) :
    ∃ r, parse_loop P L prgname (fuel + 1) fr st probe out = Outcome.ok r ∧
      r.ret = -1 ∧ r.ret < 0 ∧ r.probe = probe ∧
      r.out = out ++ [Event.stdout (app_usage prgname)] :=
  ⟨_, parse_loop_not_taken P L prgname fuel fr st probe out hne h, rfl,
    show (-1 : Int) < 0 by decide, rfl, rfl⟩

/-- C5 at `prog -q 4 -z`: when `-z` is reached the descriptor holds queue
count 4; the call prints the usage text, returns -1 and leaves that descriptor. -/
theorem app_parse_args_unknown_option_witness :
    (app_parse_args two_workers layout16 zero_frames fresh16
        ["prog".toList, "-q".toList, "4".toList, "-z".toList]
      = parse_loop two_workers layout16 "prog".toList 2 zero_frames
          ⟨["-q".toList, "4".toList], [], [], ["-z".toList], false⟩
          { fresh16 with nb_queues := 4 } [] ∧
    ∃ r, parse_loop two_workers layout16 "prog".toList 2 zero_frames
          ⟨["-q".toList, "4".toList], [], [], ["-z".toList], false⟩
          { fresh16 with nb_queues := 4 } [] = Outcome.ok r ∧
      r.ret = -1 ∧ r.ret < 0 ∧ r.probe = { fresh16 with nb_queues := 4 } ∧
      r.out = [] ++ [Event.stdout (app_usage "prog".toList)]) ∧
    (app_parse_args two_workers layout16 zero_frames fresh16 ["prog".toList, "-h".toList]
      = parse_loop two_workers layout16 "prog".toList 2 zero_frames
          ⟨[], [], [], ["-h".toList], false⟩ fresh16 [] ∧
    ∃ r, parse_loop two_workers layout16 "prog".toList 2 zero_frames
          ⟨[], [], [], ["-h".toList], false⟩ fresh16 [] = Outcome.ok r ∧
      r.ret = -1 ∧ r.ret < 0 ∧ r.probe = fresh16 ∧
      r.out = [] ++ [Event.stdout (app_usage "prog".toList)]) :=
  ⟨⟨rfl, app_parse_args_unknown_option two_workers layout16 "prog".toList 1 zero_frames
      ⟨["-q".toList, "4".toList], [], [], ["-z".toList], false⟩ { fresh16 with nb_queues := 4 }
      [] (by decide) (by decide)⟩,
    ⟨rfl, app_parse_args_unknown_option two_workers layout16 "prog".toList 1 zero_frames
      ⟨[], [], [], ["-h".toList], false⟩ fresh16 [] (by decide) (by decide)⟩⟩

/-- C10, counterexample: from the descriptor `init_probe` produces,
`prog -q 0` is accepted (the result is 2) and leaves the queue count 0. -/
theorem app_parse_args_queue_count_zero :
    init_probe layout16 fresh16 = Outcome.ok fresh16 ∧
    app_parse_args two_workers layout16 zero_frames fresh16
        ["prog".toList, "-q".toList, "0".toList]
      = Outcome.ok
          { ret := 2
            optind := 3
            argv := ["prog".toList, "-q".toList, "prog".toList]
            probe := { fresh16 with nb_queues := 0 }
            out := [] } := by
  refine ⟨rfl, by decide⟩

/-- C10, amended: starting from the descriptor `init_probe` produces, after
every run of `app_parse_args` that returns, the queue count is at least 1
provided the argument of every `-q` option handed to the loop starts with a
decimal integer that is at least 1; `-q` stores its argument unchecked. -/
theorem app_parse_args_queue_count (P : platform_t) (L : layout_t) (fr : Nat → frame_t)
    (p0 probe : probe_t) (prgname : CStr) (args : List CStr) (r : parse_result)
    (hinit : init_probe L p0 = Outcome.ok probe)
    (h : app_parse_args P L fr probe (prgname :: args) = Outcome.ok r)
    (hq : ∀ a, (opt_code 'q', some a) ∈ delivered (args.length + 1) (getopt_start P args) →
      ∃ v rest, scan_d a = some (v, rest) ∧ 1 ≤ v) :
    1 ≤ r.probe.nb_queues := by
  have h1 : probe.nb_queues = 1 := by
    unfold init_probe at hinit
    split at hinit
    · injection hinit with hinit
      rw [← hinit]
    · exact Outcome.noConfusion hinit
  exact parse_loop_nb_queues P L prgname _ _ _ _ _ r (by rw [h1]) h hq

/-- C10, amended, at `prog -P 9995 -q 4`: the queue count left is 4. -/
theorem app_parse_args_queue_count_witness :
    (∃ r, app_parse_args two_workers layout16 zero_frames fresh16
        ["prog".toList, "-P".toList, "9995".toList, "-q".toList, "4".toList] = Outcome.ok r ∧
      r.probe.nb_queues = 4) ∧
    ∀ r, app_parse_args two_workers layout16 zero_frames fresh16
        ["prog".toList, "-P".toList, "9995".toList, "-q".toList, "4".toList] = Outcome.ok r →
      1 ≤ r.probe.nb_queues :=
  ⟨⟨_, rfl, by decide⟩, fun r h =>
    app_parse_args_queue_count two_workers layout16 zero_frames fresh16 fresh16 "prog".toList
      ["-P".toList, "9995".toList, "-q".toList, "4".toList] r rfl h
      (by
        intro a ha
        have hd : delivered 5 (getopt_start two_workers
            ["-P".toList, "9995".toList, "-q".toList, "4".toList])
            = [(opt_code 'P', some "9995".toList), (opt_code 'q', some "4".toList)] := by
          decide
        simp only [List.length_cons, List.length_nil] at ha
        rw [hd] at ha
        simp only [List.mem_cons, Prod.mk.injEq, Option.some.injEq, List.mem_nil_iff,
          or_false] at ha
        rcases ha with ⟨h1, _⟩ | ⟨_, h2⟩
        · exact absurd h1 (by decide)
        · rw [h2]
          exact ⟨4, [], by decide, by decide⟩)⟩

theorem opt_code_ne_EOF (c : Char) : opt_code c ≠ EOF := by
  simp only [opt_code, EOF]
  omega

theorem getopt_long_separate (seen skipped : List CStr) (c : Char) (a : CStr) (r : List CStr)
    (pc : Bool) (hl : opt_lookup optstring c = some true) (h1 : c ≠ ':') (h2 : c ≠ ';')
    (h3 : c ≠ '-') :
    getopt_long optstring ⟨seen, skipped, [], ['-', c] :: a :: r, pc⟩
      = (opt_code c, some a, ⟨seen ++ [['-', c], a], skipped, [], r, pc⟩) := by
  have hnon : NONOPTION_P ['-', c] = false := by
    simp [NONOPTION_P]
  have hsp : (if pc = true then (([] : List CStr), ['-', c] :: a :: r)
      else List.span NONOPTION_P (['-', c] :: a :: r)) = ([], ['-', c] :: a :: r) := by
    split
    · rfl
    · simp [List.span_eq_take_drop, List.takeWhile, List.dropWhile, hnon]
  have hdd : ¬ ['-', c] = "--".toList := by
    intro e
    have e1 : "--".toList = ['-', '-'] := rfl
    rw [e1] at e
    simp only [List.cons.injEq, true_and, and_true] at e
    exact h3 e
  unfold getopt_long
  simp only [hsp, if_neg hdd, hnon, Bool.false_eq_true, if_false, if_neg h3, List.append_nil]
  unfold getopt_short
  simp only [hl, h1, h2, or_self, if_false, if_true, ne_eq, not_true_eq_false]

theorem parse_loop_step (P : platform_t) (L : layout_t) (prgname : CStr) (fuel : Nat)
    (fr : Nat → frame_t) (seen skipped : List CStr) (c : Char) (a : CStr) (r : List CStr)
    (pc : Bool) (probe probe1 : probe_t) (out log : List Event)
    (hl : opt_lookup optstring c = some true) (h1 : c ≠ ':') (h2 : c ≠ ';') (h3 : c ≠ '-')
    (hs : opt_switch P L (fr 0) probe (opt_code c) (some a) = Outcome.ok (some (probe1, log))) :
    parse_loop P L prgname (fuel + 1) fr ⟨seen, skipped, [], ['-', c] :: a :: r, pc⟩ probe out
      = parse_loop P L prgname fuel (fun n => fr (n + 1))
          ⟨seen ++ [['-', c], a], skipped, [], r, pc⟩ probe1 (out ++ log) := by
  rw [parse_loop, getopt_long_separate seen skipped c a r pc hl h1 h2 h3]
  simp only [if_neg (opt_code_ne_EOF c), hs]

theorem parse_loop_end (P : platform_t) (L : layout_t) (prgname : CStr) (fuel : Nat)
    (fr : Nat → frame_t) (seen : List CStr) (pc : Bool) (probe : probe_t) (out : List Event) :
    parse_loop P L prgname (fuel + 1) fr ⟨seen, [], [], [], pc⟩ probe out
      = Outcome.ok
          { ret := (seen.length : Int)
            optind := 1 + seen.length
            argv := (prgname :: seen).set seen.length prgname
            probe := probe
            out := out } := by
  have hg : getopt_long optstring ⟨seen, [], [], [], pc⟩ = (EOF, none, ⟨seen, [], [], [], pc⟩) := by
    unfold getopt_long
    cases pc <;> rfl
  rw [parse_loop, hg]
  simp only [if_true, getopt_t.optind, argv_of, List.append_nil, Nat.add_sub_cancel_left,
    Outcome.ok.injEq, parse_result.mk.injEq, and_true, true_and]
  omega

theorem opt_switch_m (P : platform_t) (L : layout_t) (f : frame_t) (probe : probe_t) (a : CStr) :
    opt_switch P L f probe (opt_code 'm') (some a)
      = match parse_app_l2p P f probe a with
        | Outcome.fault e => Outcome.fault e
        | Outcome.ok (probe1, log) => Outcome.ok (some (probe1, log)) := by
  unfold opt_switch
  rw [if_pos rfl]

theorem opt_switch_H (P : platform_t) (L : layout_t) (f : frame_t) (probe : probe_t) (a : CStr) :
    opt_switch P L f probe (opt_code 'H') (some a)
      = match parse_app_collector_host L probe a with
        | Outcome.fault e => Outcome.fault e
        | Outcome.ok probe1 => Outcome.ok (some (probe1, [])) := by
  unfold opt_switch
  rw [if_neg (by decide), if_pos rfl]

theorem opt_switch_P (P : platform_t) (L : layout_t) (f : frame_t) (probe : probe_t) (a : CStr) :
    opt_switch P L f probe (opt_code 'P') (some a)
      = match parse_app_collector_port probe a with
        | Outcome.fault e => Outcome.fault e
        | Outcome.ok probe1 => Outcome.ok (some (probe1, [])) := by
  unfold opt_switch
  rw [if_neg (by decide), if_neg (by decide), if_pos rfl]

theorem opt_switch_q (P : platform_t) (L : layout_t) (f : frame_t) (probe : probe_t) (a : CStr) :
    opt_switch P L f probe (opt_code 'q') (some a)
      = match parse_app_num_queues f probe a with
        | Outcome.fault e => Outcome.fault e
        | Outcome.ok probe1 => Outcome.ok (some (probe1, [])) := by
  unfold opt_switch
  rw [if_neg (by decide), if_neg (by decide), if_neg (by decide), if_pos rfl]

theorem skip_space_self (s : CStr) (h : ∀ c ∈ s, isspace c = false) : skip_space s = s := by
  cases s with
  | nil => rfl
  | cons c cs => simp [skip_space, h c (List.mem_cons_self _ _)]

theorem parse_app_collector_host_sets (L : layout_t) (probe : probe_t) (s : CStr)
    (hne : s ≠ []) (hs : ∀ c ∈ s, isspace c = false) (hfit : s.length + 1 ≤ L.addr_size) :
    parse_app_collector_host L probe s
      = Outcome.ok { probe with collector := { probe.collector with addr := s } } := by
  have ht : s.takeWhile (fun x => !isspace x) = s := by
    rw [List.takeWhile_eq_self_iff]
    intro c hc
    simp [hs c hc]
  cases s with
  | nil => exact absurd rfl hne
  | cons c cs =>
    unfold parse_app_collector_host scan_s
    rw [skip_space_self _ hs]
    simp only [ht, hfit, if_true]

theorem parse_app_collector_port_sets (probe : probe_t) (ds : CStr)
    (hd : is_decimal ds = true) (hv : decimal_value ds ≤ 2147483647) :
    parse_app_collector_port probe ds
      = Outcome.ok
          { probe with collector := { probe.collector with port := (decimal_value ds : Int) } } := by
  have e := scan_d_decimal ds [] hd stops_nil
  rw [List.append_nil] at e
  unfold parse_app_collector_port
  rw [e]
  simp only [in_int_of_le _ hv, if_true]

theorem parse_app_num_queues_sets (f : frame_t) (probe : probe_t) (ds : CStr)
    (hd : is_decimal ds = true) (hv : decimal_value ds ≤ 2147483647) :
    parse_app_num_queues f probe ds
      = Outcome.ok { probe with nb_queues := (decimal_value ds : Int) } := by
  have e := scan_d_decimal ds [] hd stops_nil
  rw [List.append_nil] at e
  unfold parse_app_num_queues
  rw [e]
  simp only [in_int_of_le _ hv, if_true]

theorem init_probe_ok (L : layout_t) (p0 probe : probe_t) (h : init_probe L p0 = Outcome.ok probe) :
    10 ≤ L.addr_size ∧
    probe = { collector := { addr := "127.0.0.1".toList, port := 2055 }
              nb_queues := 1
              l2p := List.replicate L.l2p_size ⟨0, 0, 0⟩
              rest := List.replicate L.rest_size 0 } := by
  unfold init_probe at h
  split at h
  · next h1 =>
    injection h with h
    exact ⟨h1, h.symm⟩
  · exact Outcome.noConfusion h

/-- C4: from the descriptor `init_probe` produces, on a platform with exactly
two worker cores, `app_parse_args` on `-H 10.0.0.5 -P 9995 -q 4 -m 1:0.0,2:0.1`
returns 8, leaves address `10.0.0.5`, port 9995, queue count 4 and mapping
entries (1,0,0), (2,0,1), and writes neither an error line nor the usage text.
More generally `-H` stores a non-empty argument without white space that fits
the array, `-P` and `-q` store the value of a decimal argument that fits an
`int`, and `-m` writes no error line for a well-formed specification with as
many terms as there are worker cores. -/
theorem app_parse_args_full_example (P : platform_t) (L : layout_t) (fr : Nat → frame_t)
    (p0 probe : probe_t) (prgname : CStr)
    (hinit : init_probe L p0 = Outcome.ok probe)
    (hw : (lcore_foreach_slave P).length = 2) (hcap : 2 ≤ L.l2p_size) :
    (∃ r, app_parse_args P L fr probe (prgname :: full_args) = Outcome.ok r ∧
      0 ≤ r.ret ∧ r.ret = 8 ∧
      r.probe.collector.addr = "10.0.0.5".toList ∧
      r.probe.collector.port = 9995 ∧
      r.probe.nb_queues = 4 ∧
      r.probe.l2p = ⟨1, 0, 0⟩ :: ⟨2, 0, 1⟩ :: List.replicate (L.l2p_size - 2) ⟨0, 0, 0⟩ ∧
      r.probe.rest = probe.rest ∧
      r.out = []) ∧
    (∀ (pr : probe_t) (s : CStr), s ≠ [] → (∀ c ∈ s, isspace c = false) →
      s.length + 1 ≤ L.addr_size →
      parse_app_collector_host L pr s
        = Outcome.ok { pr with collector := { pr.collector with addr := s } }) ∧
    (∀ (pr : probe_t) (ds : CStr), is_decimal ds = true → decimal_value ds ≤ 2147483647 →
      parse_app_collector_port pr ds
        = Outcome.ok
            { pr with collector := { pr.collector with port := (decimal_value ds : Int) } }) ∧
    (∀ (f : frame_t) (pr : probe_t) (ds : CStr), is_decimal ds = true →
      decimal_value ds ≤ 2147483647 →
      parse_app_num_queues f pr ds
        = Outcome.ok { pr with nb_queues := (decimal_value ds : Int) }) ∧
    (∀ (f : frame_t) (pr : probe_t) (terms : List term_t), terms ≠ [] →
      (∀ t ∈ terms, term_ok t = true) → (spec_text terms).length ≤ 63 →
      terms.length ≤ pr.l2p.length → terms.length = (lcore_foreach_slave P).length →
      ∃ pr1, parse_app_l2p P f pr (spec_text terms) = Outcome.ok (pr1, [])) := by
  obtain ⟨hadd, hp⟩ := init_probe_ok L p0 probe hinit
  refine ⟨?_, parse_app_collector_host_sets L, parse_app_collector_port_sets,
    parse_app_num_queues_sets, ?_⟩
  · have hH := parse_app_collector_host_sets L probe "10.0.0.5".toList (by decide) (by decide)
      (by
        have : "10.0.0.5".toList.length = 8 := rfl
        omega)
    have hP := parse_app_collector_port_sets
      { probe with collector := { probe.collector with addr := "10.0.0.5".toList } }
      "9995".toList (by decide) (by decide)
    have hq := parse_app_num_queues_sets (fr 2)
      { probe with collector := { addr := "10.0.0.5".toList, port := 9995 } }
      "4".toList (by decide) (by decide)
    have hm := parse_app_l2p_terms P (fr 3)
      { probe with collector := { addr := "10.0.0.5".toList, port := 9995 }, nb_queues := 4 }
      two_terms (by decide) (by decide) (by decide)
      (by
        rw [hp]
        simp only [List.length_replicate]
        exact hcap)
    have hlog : l2p_log P two_terms.length = [] := by
      simp only [l2p_log, hw]
      rfl
    rw [hlog] at hm
    have hsm : opt_switch P L (fr 3)
        { probe with collector := { addr := "10.0.0.5".toList, port := 9995 }, nb_queues := 4 }
        (opt_code 'm') (some "1:0.0,2:0.1".toList)
        = Outcome.ok (some
            ({ probe with collector := { addr := "10.0.0.5".toList, port := 9995 },
                          nb_queues := 4,
                          l2p := two_terms.map term_entry ++ probe.l2p.drop two_terms.length },
              [])) := by
      have e : "1:0.0,2:0.1".toList = spec_text two_terms := by decide
      rw [opt_switch_m, e, hm]
    have hsq : opt_switch P L (fr 2)
        { probe with collector := { addr := "10.0.0.5".toList, port := 9995 } }
        (opt_code 'q') (some "4".toList)
        = Outcome.ok (some
            ({ probe with collector := { addr := "10.0.0.5".toList, port := 9995 },
                          nb_queues := 4 }, [])) := by
      rw [opt_switch_q, hq]
      rfl
    have s1 := parse_loop_step P L prgname 8 fr [] [] 'H' "10.0.0.5".toList
      ["-P".toList, "9995".toList, "-q".toList, "4".toList, "-m".toList, "1:0.0,2:0.1".toList]
      P.posixly_correct probe
      { probe with collector := { probe.collector with addr := "10.0.0.5".toList } }
      [] [] (by decide) (by decide) (by decide) (by decide)
      (by rw [opt_switch_H, hH])
    have s2 := parse_loop_step P L prgname 7 (fun n => fr (n + 1))
      ["-H".toList, "10.0.0.5".toList] [] 'P' "9995".toList
      ["-q".toList, "4".toList, "-m".toList, "1:0.0,2:0.1".toList]
      P.posixly_correct
      { probe with collector := { probe.collector with addr := "10.0.0.5".toList } }
      { probe with collector := { addr := "10.0.0.5".toList, port := 9995 } }
      [] [] (by decide) (by decide) (by decide) (by decide)
      (by rw [opt_switch_P, hP]; rfl)
    have s3 := parse_loop_step P L prgname 6 (fun n => fr (n + 1 + 1))
      ["-H".toList, "10.0.0.5".toList, "-P".toList, "9995".toList] [] 'q' "4".toList
      ["-m".toList, "1:0.0,2:0.1".toList]
      P.posixly_correct
      { probe with collector := { addr := "10.0.0.5".toList, port := 9995 } }
      { probe with collector := { addr := "10.0.0.5".toList, port := 9995 }, nb_queues := 4 }
      [] [] (by decide) (by decide) (by decide) (by decide)
      hsq
    have s4 := parse_loop_step P L prgname 5 (fun n => fr (n + 1 + 1 + 1))
      ["-H".toList, "10.0.0.5".toList, "-P".toList, "9995".toList, "-q".toList, "4".toList] []
      'm' "1:0.0,2:0.1".toList []
      P.posixly_correct
      { probe with collector := { addr := "10.0.0.5".toList, port := 9995 }, nb_queues := 4 }
      { probe with collector := { addr := "10.0.0.5".toList, port := 9995 }, nb_queues := 4,
                   l2p := two_terms.map term_entry ++ probe.l2p.drop two_terms.length }
      [] [] (by decide) (by decide) (by decide) (by decide) hsm
    have s5 := parse_loop_end P L prgname 4 (fun n => fr (n + 1 + 1 + 1 + 1))
      ["-H".toList, "10.0.0.5".toList, "-P".toList, "9995".toList, "-q".toList, "4".toList,
        "-m".toList, "1:0.0,2:0.1".toList] P.posixly_correct
      { probe with collector := { addr := "10.0.0.5".toList, port := 9995 }, nb_queues := 4,
                   l2p := two_terms.map term_entry ++ probe.l2p.drop two_terms.length } []
    refine ⟨_, (s1.trans (s2.trans (s3.trans (s4.trans s5)))), ?_, rfl, rfl, rfl, rfl, ?_,
      rfl, rfl⟩
    · show (0 : Int) ≤ 8
      decide
    · simp only [hp, List.drop_replicate]
      rfl
  · intro f pr terms hne hok hlen hc hcount
    have h := parse_app_l2p_terms P f pr terms hne hok hlen hc
    have hl : l2p_log P terms.length = [] := by
      simp [l2p_log, hcount]
    rw [hl] at h
    exact ⟨_, h⟩

/-- C4 on the platform `two_workers` with the layout `layout16`. -/
theorem app_parse_args_full_example_witness :
    ∃ r, app_parse_args two_workers layout16 zero_frames fresh16 ("prog".toList :: full_args)
        = Outcome.ok r ∧
      0 ≤ r.ret ∧ r.ret = 8 ∧
      r.probe.collector.addr = "10.0.0.5".toList ∧
      r.probe.collector.port = 9995 ∧
      r.probe.nb_queues = 4 ∧
      r.probe.l2p
        = ⟨1, 0, 0⟩ :: ⟨2, 0, 1⟩ :: List.replicate (layout16.l2p_size - 2) ⟨0, 0, 0⟩ ∧
      r.probe.rest = fresh16.rest ∧
      r.out = [] :=
  (app_parse_args_full_example two_workers layout16 zero_frames fresh16 fresh16 "prog".toList
    rfl (by decide) (by decide)).1

/-! ## Facts about the dispatch -/

theorem lcore_foreach_slave_nodup (P : platform_t) : (lcore_foreach_slave P).Nodup :=
  (List.nodup_range _).filter _

theorem launches_append (a b : List Event) : launches (a ++ b) = launches a ++ launches b :=
  List.filter_append a b

theorem launches_dispatch (P : platform_t) : launches (dispatch P) = dispatch P := by
  unfold launches dispatch
  rw [List.filter_eq_self]
  intro a ha
  obtain ⟨c, _, hc⟩ := List.mem_map.1 ha
  rw [← hc]
  rfl

theorem launches_none (l : List Event) (h : ∀ e ∈ l, is_launch e = false) : launches l = [] := by
  unfold launches
  rw [List.filter_eq_nil_iff]
  intro a ha
  rw [h a ha]
  exact Bool.false_ne_true

theorem app_parse_args_no_launch (P : platform_t) (L : layout_t) (fr : Nat → frame_t)
    (probe : probe_t) (argv : List CStr) (r : parse_result)
    (h : app_parse_args P L fr probe argv = Outcome.ok r) : launches r.out = [] := by
  cases argv with
  | nil => exact Outcome.noConfusion h
  | cons prgname args =>
    apply launches_none
    exact (parse_loop_ok P L prgname _ _ _ _ _ r h).2 (fun e he => by simp at he)

theorem dispatch_count (P : platform_t) (c : Nat) :
    (dispatch P).count (Event.remote_launch lcore_function_t.launch_probe none c)
      = if c ∈ lcore_foreach_slave P then 1 else 0 := by
  unfold dispatch
  rw [List.count_map_of_injective _ _ (by
    intro a b hab
    injection hab)]
  exact List.count_eq_of_nodup (lcore_foreach_slave_nodup P)

/-- C8: in every run of `main`, either no worker launch is issued at all, or
`app_parse_args` has returned a non-negative result and the run is the
prologue, the output of `app_parse_args`, then exactly the launches of the
foreach-slave loop, then the epilogue: one launch of `launch_probe` with a null
argument on every worker core, none on any other core, whatever error lines
`app_parse_args` wrote. The run reaches the launches whenever `rte_eal_init`
and `app_parse_args` return non-negative results and `app_init` returns. -/
theorem main_dispatch (P : platform_t) (L : layout_t) (fr : Nat → frame_t) (probe0 : probe_t)
    (argv : List CStr) :
    (∀ tr e, main P L fr probe0 argv = Outcome.ok (tr, e) →
      (launches tr = [] ∧ e ≠ ending_t.returned 0) ∨
      (∃ probe r, init_probe L probe0 = Outcome.ok probe ∧
        app_parse_args P L fr probe
          ((P.rte_eal_init argv).2.drop (P.rte_eal_init argv).1.toNat) = Outcome.ok r ∧
        0 ≤ r.ret ∧ (∃ p2, P.app_init r.probe = some p2) ∧
        tr = main_prologue ++ r.out ++ dispatch P ++ main_epilogue ∧
        launches (main_prologue ++ r.out) = [] ∧ launches main_epilogue = [] ∧
        launches tr = dispatch P ∧ e = ending_t.returned 0)) ∧
    (∀ probe r p2, init_probe L probe0 = Outcome.ok probe →
      0 ≤ (P.rte_eal_init argv).1 →
      app_parse_args P L fr probe
        ((P.rte_eal_init argv).2.drop (P.rte_eal_init argv).1.toNat) = Outcome.ok r →
      0 ≤ r.ret → P.app_init r.probe = some p2 →
      main P L fr probe0 argv
        = Outcome.ok (main_prologue ++ r.out ++ dispatch P ++ main_epilogue,
            ending_t.returned 0)) ∧
    (lcore_foreach_slave P).Nodup ∧
    (∀ c, (dispatch P).count (Event.remote_launch lcore_function_t.launch_probe none c)
      = if c ∈ lcore_foreach_slave P then 1 else 0) ∧
    (∀ ev ∈ dispatch P, ∃ c ∈ lcore_foreach_slave P,
      ev = Event.remote_launch lcore_function_t.launch_probe none c) ∧
    (∀ c ∈ lcore_foreach_slave P,
      P.lcore_enabled c = true ∧ c ≠ P.master_lcore ∧ c < P.RTE_MAX_LCORE) := by
  refine ⟨?_, ?_, lcore_foreach_slave_nodup P, dispatch_count P, ?_, ?_⟩
  · intro tr e h
    unfold main at h
    cases hi : init_probe L probe0 with
    | fault f =>
      rw [hi] at h
      exact Outcome.noConfusion h
    | ok probe =>
      rw [hi] at h
      simp only at h
      split at h
      · simp only [Outcome.ok.injEq, Prod.mk.injEq] at h
        left
        rw [← h.1, ← h.2]
        exact ⟨by decide, by decide⟩
      · cases ha : app_parse_args P L fr probe
            ((P.rte_eal_init argv).2.drop (P.rte_eal_init argv).1.toNat) with
        | fault f =>
          rw [ha] at h
          exact Outcome.noConfusion h
        | ok r =>
          rw [ha] at h
          simp only at h
          have hno := app_parse_args_no_launch _ _ _ _ _ _ ha
          split at h
          · simp only [Outcome.ok.injEq, Prod.mk.injEq] at h
            left
            rw [← h.1, ← h.2]
            refine ⟨?_, by decide⟩
            rw [launches_append, launches_append, hno]
            rfl
          · next hret =>
            cases hp : P.app_init r.probe with
            | none =>
              rw [hp] at h
              simp only [Outcome.ok.injEq, Prod.mk.injEq] at h
              left
              rw [← h.1, ← h.2]
              refine ⟨?_, by decide⟩
              rw [launches_append, hno]
              rfl
            | some p2 =>
              rw [hp] at h
              simp only [Outcome.ok.injEq, Prod.mk.injEq] at h
              right
              have hpre : launches (main_prologue ++ r.out) = [] := by
                rw [launches_append, hno]
                rfl
              refine ⟨probe, r, rfl, ha, by omega, ⟨p2, hp⟩, h.1.symm, hpre, rfl, ?_, h.2.symm⟩
              rw [← h.1, launches_append, launches_append, hpre, launches_dispatch]
              exact List.append_nil _
  · intro probe r p2 hi he ha hr hp
    unfold main
    rw [hi]
    simp only
    rw [if_neg (by omega), ha]
    simp only
    rw [if_neg (by omega), hp]
  · intro ev hev
    obtain ⟨c, hc, hce⟩ := List.mem_map.1 hev
    exact ⟨c, hc, hce.symm⟩
  · intro c hc
    unfold lcore_foreach_slave at hc
    simp only [List.mem_filter, List.mem_range, Bool.and_eq_true, bne_iff_ne, ne_eq] at hc
    exact ⟨hc.2.1, hc.2.2, hc.1⟩

/-- C8 at `prog -m 1:0.0` on the platform `two_workers`: `parse_app_l2p` logs a
mismatch, and `launch_probe` is still launched once on each of the worker
cores 1 and 2. -/
theorem main_dispatch_witness :
    main two_workers layout16 zero_frames fresh16
        ["prog".toList, "-m".toList, "1:0.0".toList]
      = Outcome.ok
          (main_prologue ++ [Event.init_log_err 1 0]
            ++ [Event.remote_launch lcore_function_t.launch_probe none 1,
                Event.remote_launch lcore_function_t.launch_probe none 2]
            ++ main_epilogue, ending_t.returned 0) ∧
    launches (main_prologue ++ [Event.init_log_err 1 0]
        ++ [Event.remote_launch lcore_function_t.launch_probe none 1,
            Event.remote_launch lcore_function_t.launch_probe none 2]
        ++ main_epilogue) = dispatch two_workers ∧
    (∀ c, (dispatch two_workers).count
        (Event.remote_launch lcore_function_t.launch_probe none c)
      = if c ∈ lcore_foreach_slave two_workers then 1 else 0) :=
  ⟨by decide, by decide,
    (main_dispatch two_workers layout16 zero_frames fresh16
      ["prog".toList, "-m".toList, "1:0.0".toList]).2.2.2.1⟩

/-! ## Facts about the collector options -/

theorem scan_d_none_of_not_integer (s : CStr) (h : begins_with_integer s = false) :
    scan_d s = none := by
  unfold begins_with_integer at h
  unfold scan_d
  cases hs : skip_space s with
  | nil => rfl
  | cons c cs =>
    rw [hs] at h
    simp only at h ⊢
    by_cases hm : c = '-'
    · rw [if_pos (Or.inl hm)] at h
      rw [if_pos hm]
      cases cs with
      | nil => rfl
      | cons d ds =>
        simp only at h
        simp only [scan_unsigned, h, Bool.false_eq_true, if_false, Option.map_none']
    · rw [if_neg hm]
      by_cases hp : c = '+'
      · rw [if_pos (Or.inr hp)] at h
        rw [if_pos hp]
        cases cs with
        | nil => rfl
        | cons d ds =>
          simp only at h
          simp only [scan_unsigned, h, Bool.false_eq_true, if_false, Option.map_none']
      · rw [if_neg (by simp only [hm, hp, or_self, not_false_eq_true])] at h
        rw [if_neg hp]
        simp only [scan_unsigned, h, Bool.false_eq_true, if_false, Option.map_none']

theorem parse_app_collector_port_value (probe probe1 : probe_t) (a : CStr) (v : Int)
    (rest : CStr) (hs : scan_d a = some (v, rest))
    (h : parse_app_collector_port probe a = Outcome.ok probe1) :
    probe1.collector.port = v := by
  unfold parse_app_collector_port at h
  rw [hs] at h
  simp only at h
  split at h
  · injection h with h
    rw [← h]
  · exact Outcome.noConfusion h

theorem parse_app_collector_port_none (probe : probe_t) (a : CStr) (hs : scan_d a = none) :
    parse_app_collector_port probe a = Outcome.ok probe := by
  unfold parse_app_collector_port
  rw [hs]

theorem parse_app_num_queues_frame (f : frame_t) (probe probe1 : probe_t) (str : CStr)
    (h : parse_app_num_queues f probe str = Outcome.ok probe1) :
    probe1.collector = probe.collector ∧ probe1.l2p = probe.l2p ∧ probe1.rest = probe.rest := by
  unfold parse_app_num_queues at h
  split at h
  · injection h with h
    rw [← h]
    exact ⟨rfl, rfl, rfl⟩
  · split at h
    · injection h with h
      rw [← h]
      exact ⟨rfl, rfl, rfl⟩
    · exact Outcome.noConfusion h

theorem skip_space_head (s : CStr) (c : Char) (cs : CStr) (h : skip_space s = c :: cs) :
    isspace c = false := by
  induction s with
  | nil => exact List.noConfusion h
  | cons a s ih =>
    rw [skip_space] at h
    split at h
    · exact ih h
    · next hn =>
      injection h with h1 h2
      rw [← h1]
      simpa using hn

theorem scan_s_ne_nil (s tok : CStr) (h : scan_s s = some tok) :
    tok ≠ [] ∧ tok = (skip_space s).takeWhile (fun x => !isspace x) := by
  unfold scan_s at h
  cases hs : skip_space s with
  | nil =>
    rw [hs] at h
    exact Option.noConfusion h
  | cons c cs =>
    rw [hs] at h
    simp only [Option.some.injEq] at h
    have hc := skip_space_head s c cs hs
    rw [← h]
    refine ⟨?_, rfl⟩
    simp [List.takeWhile, hc]

theorem parse_app_collector_host_addr (L : layout_t) (probe probe1 : probe_t) (str : CStr)
    (h : parse_app_collector_host L probe str = Outcome.ok probe1) :
    (skip_space str = [] ∧ probe1 = probe) ∨
    (probe1.collector.addr = (skip_space str).takeWhile (fun x => !isspace x) ∧
      probe1.collector.addr ≠ []) := by
  unfold parse_app_collector_host at h
  cases hs : scan_s str with
  | none =>
    rw [hs] at h
    injection h with h
    left
    refine ⟨?_, h.symm⟩
    unfold scan_s at hs
    cases hk : skip_space str with
    | nil => rfl
    | cons c cs =>
      rw [hk] at hs
      exact Option.noConfusion hs
  | some tok =>
    rw [hs] at h
    simp only at h
    split at h
    · injection h with h
      right
      obtain ⟨h1, h2⟩ := scan_s_ne_nil str tok hs
      rw [← h]
      exact ⟨h2, h1⟩
    · exact Outcome.noConfusion h

theorem opt_switch_collector (P : platform_t) (L : layout_t) (f : frame_t)
    (probe probe1 : probe_t) (opt : Int) (optarg : Option CStr) (log : List Event)
    (h : opt_switch P L f probe opt optarg = Outcome.ok (some (probe1, log))) :
    (opt = opt_code 'H' ∧ ∃ a, optarg = some a ∧
        parse_app_collector_host L probe a = Outcome.ok probe1) ∨
    (opt = opt_code 'P' ∧ ∃ a, optarg = some a ∧
        parse_app_collector_port probe a = Outcome.ok probe1) ∨
    (opt ≠ opt_code 'P' ∧ probe1.collector = probe.collector) := by
  unfold opt_switch at h
  split at h
  · next hm =>
    cases optarg with
    | none => exact Outcome.noConfusion h
    | some a =>
      simp only at h
      cases h1 : parse_app_l2p P f probe a with
      | fault e1 =>
        rw [h1] at h
        exact Outcome.noConfusion h
      | ok v =>
        obtain ⟨p1, lg⟩ := v
        rw [h1] at h
        simp only [Outcome.ok.injEq, Option.some.injEq, Prod.mk.injEq] at h
        obtain ⟨fr1, _⟩ := parse_app_l2p_frame _ _ _ _ _ _ h1
        rw [← h.1]
        refine Or.inr (Or.inr ⟨?_, fr1.1⟩)
        rw [hm]
        decide
  · split at h
    · next hm hH =>
      cases optarg with
      | none => exact Outcome.noConfusion h
      | some a =>
        simp only at h
        cases h1 : parse_app_collector_host L probe a with
        | fault e1 =>
          rw [h1] at h
          exact Outcome.noConfusion h
        | ok p1 =>
          rw [h1] at h
          simp only [Outcome.ok.injEq, Option.some.injEq, Prod.mk.injEq] at h
          rw [← h.1]
          exact Or.inl ⟨hH, a, rfl, h1⟩
    · split at h
      · next hm hH hP =>
        cases optarg with
        | none => exact Outcome.noConfusion h
        | some a =>
          simp only at h
          cases h1 : parse_app_collector_port probe a with
          | fault e1 =>
            rw [h1] at h
            exact Outcome.noConfusion h
          | ok p1 =>
            rw [h1] at h
            simp only [Outcome.ok.injEq, Option.some.injEq, Prod.mk.injEq] at h
            rw [← h.1]
            exact Or.inr (Or.inl ⟨hP, a, rfl, h1⟩)
      · split at h
        · next hm hH hP hq =>
          cases optarg with
          | none => exact Outcome.noConfusion h
          | some a =>
            simp only at h
            cases h1 : parse_app_num_queues f probe a with
            | fault e1 =>
              rw [h1] at h
              exact Outcome.noConfusion h
            | ok p1 =>
              rw [h1] at h
              simp only [Outcome.ok.injEq, Option.some.injEq, Prod.mk.injEq] at h
              rw [← h.1]
              exact Or.inr (Or.inr ⟨hP, (parse_app_num_queues_frame _ _ _ _ h1).1⟩)
        · simp only [Outcome.ok.injEq] at h
          exact Option.noConfusion h

theorem parse_loop_port (P : platform_t) (L : layout_t) (prgname : CStr) (fuel : Nat) :
    ∀ (fr : Nat → frame_t) (st : getopt_t) (probe : probe_t) (out : List Event)
      (r : parse_result),
      1 ≤ probe.collector.port →
      parse_loop P L prgname fuel fr st probe out = Outcome.ok r →
      (∀ a, (opt_code 'P', some a) ∈ delivered fuel st →
        ∀ v rest, scan_d a = some (v, rest) → 1 ≤ v) →
      1 ≤ r.probe.collector.port := by
  induction fuel with
  | zero =>
    intro fr st probe out r _ h
    exact Outcome.noConfusion h
  | succ n ih =>
    intro fr st probe out r hq h hd
    rw [parse_loop] at h
    rw [delivered] at hd
    split at h
    · injection h with h
      rw [← h]
      exact hq
    · next hne =>
      rw [if_neg hne] at hd
      cases hs : opt_switch P L (fr 0) probe (getopt_long optstring st).1
          (getopt_long optstring st).2.1 with
      | fault e1 =>
        rw [hs] at h
        exact Outcome.noConfusion h
      | ok v =>
        rw [hs] at h
        cases v with
        | none =>
          simp only at h
          injection h with h
          rw [← h]
          exact hq
        | some w =>
          obtain ⟨p1, lg⟩ := w
          simp only at h
          have ht := (opt_switch_some _ _ _ _ _ _ _ _ hs).1
          rw [if_pos ht] at hd
          have hq1 : 1 ≤ p1.collector.port := by
            rcases opt_switch_collector _ _ _ _ _ _ _ _ hs with
              ⟨_, a, _, hp⟩ | ⟨ho, a, ha, hp⟩ | ⟨_, hp⟩
            · rw [(parse_app_collector_host_frame _ _ _ _ hp).2.2.2]
              exact hq
            · cases hsc : scan_d a with
              | none =>
                rw [parse_app_collector_port_none _ _ hsc] at hp
                injection hp with hp
                rw [← hp]
                exact hq
              | some w =>
                obtain ⟨v, rest⟩ := w
                rw [parse_app_collector_port_value _ _ _ _ _ hsc hp]
                exact hd a (by
                  rw [← ho, ← ha]
                  exact List.mem_cons_self _ _) v rest hsc
            · rw [hp]
              exact hq
          exact ih _ _ _ _ _ hq1 h (fun a ha => hd a (List.mem_cons_of_mem _ ha))

theorem parse_loop_addr (P : platform_t) (L : layout_t) (prgname : CStr) (fuel : Nat) :
    ∀ (fr : Nat → frame_t) (st : getopt_t) (probe : probe_t) (out : List Event)
      (r : parse_result),
      probe.collector.addr ≠ [] →
      parse_loop P L prgname fuel fr st probe out = Outcome.ok r →
      r.probe.collector.addr ≠ [] := by
  induction fuel with
  | zero =>
    intro fr st probe out r _ h
    exact Outcome.noConfusion h
  | succ n ih =>
    intro fr st probe out r hq h
    rw [parse_loop] at h
    split at h
    · injection h with h
      rw [← h]
      exact hq
    · cases hs : opt_switch P L (fr 0) probe (getopt_long optstring st).1
          (getopt_long optstring st).2.1 with
      | fault e1 =>
        rw [hs] at h
        exact Outcome.noConfusion h
      | ok v =>
        rw [hs] at h
        cases v with
        | none =>
          simp only at h
          injection h with h
          rw [← h]
          exact hq
        | some w =>
          obtain ⟨p1, lg⟩ := w
          simp only at h
          have hq1 : p1.collector.addr ≠ [] := by
            rcases opt_switch_collector _ _ _ _ _ _ _ _ hs with
              ⟨_, a, _, hp⟩ | ⟨_, a, _, hp⟩ | ⟨_, hp⟩
            · rcases parse_app_collector_host_addr _ _ _ _ hp with ⟨_, h2⟩ | ⟨_, h2⟩
              · rw [h2]
                exact hq
              · exact h2
            · rw [(parse_app_collector_port_frame _ _ _ hp).2.2.2]
              exact hq
            · rw [hp]
              exact hq
          exact ih _ _ _ _ _ hq1 h

theorem scan_d_some_of_integer (s : CStr) (h : begins_with_integer s = true) :
    ∃ v rest, scan_d s = some (v, rest) := by
  unfold begins_with_integer at h
  unfold scan_d
  cases hs : skip_space s with
  | nil =>
    rw [hs] at h
    exact Bool.noConfusion h
  | cons c cs =>
    rw [hs] at h
    simp only at h ⊢
    by_cases hm : c = '-'
    · rw [if_pos (Or.inl hm)] at h
      rw [if_pos hm]
      cases cs with
      | nil => exact Bool.noConfusion h
      | cons d ds =>
        simp only at h
        simp only [scan_unsigned, h, if_true, Option.map_some']
        exact ⟨_, _, rfl⟩
    · rw [if_neg hm]
      by_cases hp : c = '+'
      · rw [if_pos (Or.inr hp)] at h
        rw [if_pos hp]
        cases cs with
        | nil => exact Bool.noConfusion h
        | cons d ds =>
          simp only at h
          simp only [scan_unsigned, h, if_true, Option.map_some']
          exact ⟨_, _, rfl⟩
      · rw [if_neg (by simp only [hm, hp, or_self, not_false_eq_true])] at h
        rw [if_neg hp]
        simp only [scan_unsigned, h, if_true, Option.map_some']
        exact ⟨_, _, rfl⟩

theorem init_probe_collector (L : layout_t) (p0 probe : probe_t)
    (h : init_probe L p0 = Outcome.ok probe) :
    probe.collector.addr = "127.0.0.1".toList ∧ probe.collector.port = 2055 := by
  rw [(init_probe_ok L p0 probe h).2]
  exact ⟨rfl, rfl⟩

/-- C11, counterexample: from the descriptor `init_probe` produces, `prog -P 0`
is accepted (the result is 2) and leaves the collector port 0. -/
theorem app_parse_args_port_zero :
    init_probe layout16 fresh16 = Outcome.ok fresh16 ∧
    app_parse_args two_workers layout16 zero_frames fresh16
        ["prog".toList, "-P".toList, "0".toList]
      = Outcome.ok
          { ret := 2
            optind := 3
            argv := ["prog".toList, "-P".toList, "prog".toList]
            probe := { fresh16 with collector := { fresh16.collector with port := 0 } }
            out := [] } := by
  refine ⟨rfl, by decide⟩

/-- C11, amended: starting from the descriptor `init_probe` produces, after
every run of `app_parse_args` that returns, the collector port is positive
provided every `-P` argument handed to the loop that begins with a decimal
integer has a value of at least 1; `-P` stores such a value unchecked and
leaves the port as it is when its argument has no leading integer. -/
theorem app_parse_args_port (P : platform_t) (L : layout_t) (fr : Nat → frame_t)
    (p0 probe : probe_t) (prgname : CStr) (args : List CStr) (r : parse_result)
    (hinit : init_probe L p0 = Outcome.ok probe)
    (h : app_parse_args P L fr probe (prgname :: args) = Outcome.ok r)
    (hP : ∀ a, (opt_code 'P', some a) ∈ delivered (args.length + 1) (getopt_start P args) →
      ∀ v rest, scan_d a = some (v, rest) → 1 ≤ v) :
    1 ≤ r.probe.collector.port := by
  have h1 := (init_probe_collector L p0 probe hinit).2
  exact parse_loop_port P L prgname _ _ _ _ _ r (by rw [h1]; decide) h hP

/-- C11, amended, at `prog -P abc -P 80`: the first argument has no integer
and leaves 2055, the second stores 80; the port left is 80. -/
theorem app_parse_args_port_witness :
    (∃ r, app_parse_args two_workers layout16 zero_frames fresh16
        ["prog".toList, "-P".toList, "abc".toList, "-P".toList, "80".toList] = Outcome.ok r ∧
      r.probe.collector.port = 80) ∧
    ∀ r, app_parse_args two_workers layout16 zero_frames fresh16
        ["prog".toList, "-P".toList, "abc".toList, "-P".toList, "80".toList] = Outcome.ok r →
      1 ≤ r.probe.collector.port :=
  ⟨⟨_, rfl, by decide⟩, fun r h =>
    app_parse_args_port two_workers layout16 zero_frames fresh16 fresh16 "prog".toList
      ["-P".toList, "abc".toList, "-P".toList, "80".toList] r rfl h
      (by
        intro a ha v rest hv
        have hd : delivered 5 (getopt_start two_workers
            ["-P".toList, "abc".toList, "-P".toList, "80".toList])
            = [(opt_code 'P', some "abc".toList), (opt_code 'P', some "80".toList)] := by
          decide
        simp only [List.length_cons, List.length_nil] at ha
        rw [hd] at ha
        simp only [List.mem_cons, Prod.mk.injEq, Option.some.injEq, List.mem_nil_iff,
          or_false, true_and] at ha
        rcases ha with h1 | h2
        · rw [h1] at hv
          have e : scan_d "abc".toList = none := by decide
          rw [e] at hv
          exact Option.noConfusion hv
        · rw [h2] at hv
          have e : scan_d "80".toList = some (80, []) := by decide
          rw [e] at hv
          simp only [Option.some.injEq, Prod.mk.injEq] at hv
          rw [← hv.1]
          decide)⟩

/-- C12: starting from the descriptor `init_probe` produces, after every run
of `app_parse_args` that returns, whatever the argument vector, the collector
address is a non-empty string; `parse_app_collector_host` either leaves the
descriptor as it is (its argument is empty or all white space) or stores the
first white-space-delimited token of its argument, which is not empty. -/
theorem app_parse_args_addr_nonempty (P : platform_t) (L : layout_t) (fr : Nat → frame_t)
    (p0 probe : probe_t) (prgname : CStr) (args : List CStr) (r : parse_result)
    (hinit : init_probe L p0 = Outcome.ok probe)
    (h : app_parse_args P L fr probe (prgname :: args) = Outcome.ok r) :
    r.probe.collector.addr ≠ [] ∧
    ∀ (pr pr1 : probe_t) (s : CStr), parse_app_collector_host L pr s = Outcome.ok pr1 →
      (skip_space s = [] ∧ pr1 = pr) ∨
      (pr1.collector.addr = (skip_space s).takeWhile (fun x => !isspace x) ∧
        pr1.collector.addr ≠ []) := by
  have h1 := (init_probe_collector L p0 probe hinit).1
  refine ⟨parse_loop_addr P L prgname _ _ _ _ _ r ?_ h,
    fun pr pr1 s hs => parse_app_collector_host_addr L pr pr1 s hs⟩
  rw [h1]
  decide

/-- C12 at `prog -H "" -H "   "`: both arguments leave the default address. -/
theorem app_parse_args_addr_nonempty_witness :
    ∃ r, app_parse_args two_workers layout16 zero_frames fresh16
        ["prog".toList, "-H".toList, "".toList, "-H".toList, "   ".toList] = Outcome.ok r ∧
      r.probe.collector.addr = "127.0.0.1".toList ∧ r.probe.collector.addr ≠ [] :=
  ⟨_, rfl, by decide,
    (app_parse_args_addr_nonempty two_workers layout16 zero_frames fresh16 fresh16
      "prog".toList ["-H".toList, "".toList, "-H".toList, "   ".toList] _ rfl rfl).1⟩

/-- C14: for every descriptor and every `-P` argument that does not begin,
after optional white space, with a decimal integer, `parse_app_collector_port`
returns the descriptor unchanged: the port keeps its value and no other field
changes. Run through `app_parse_args` as `-P <argument>`, the descriptor is
likewise left as it was. -/
theorem parse_app_collector_port_not_integer (probe : probe_t) (str : CStr)
    (h : begins_with_integer str = false) :
    parse_app_collector_port probe str = Outcome.ok probe ∧
    ∀ (P : platform_t) (L : layout_t) (fr : Nat → frame_t) (prgname : CStr),
      app_parse_args P L fr probe [prgname, "-P".toList, str]
        = Outcome.ok
            { ret := 2
              optind := 3
              argv := [prgname, "-P".toList, prgname]
              probe := probe
              out := [] } := by
  have hp := parse_app_collector_port_none probe str (scan_d_none_of_not_integer str h)
  refine ⟨hp, ?_⟩
  intro P L fr prgname
  have s1 := parse_loop_step P L prgname 2 fr [] [] 'P' str [] P.posixly_correct probe probe
    [] [] (by decide) (by decide) (by decide) (by decide) (by rw [opt_switch_P, hp])
  have s2 := parse_loop_end P L prgname 1 (fun n => fr (n + 1)) ["-P".toList, str]
    P.posixly_correct probe []
  exact s1.trans s2

/-- C14 at the argument `abc` on the freshly initialised descriptor: the port
stays 2055. -/
theorem parse_app_collector_port_not_integer_witness :
    parse_app_collector_port fresh16 "abc".toList = Outcome.ok fresh16 ∧
    fresh16.collector.port = 2055 ∧
    ∀ (P : platform_t) (L : layout_t) (fr : Nat → frame_t) (prgname : CStr),
      app_parse_args P L fr fresh16 [prgname, "-P".toList, "abc".toList]
        = Outcome.ok
            { ret := 2
              optind := 3
              argv := [prgname, "-P".toList, prgname]
              probe := fresh16
              out := [] } :=
  ⟨(parse_app_collector_port_not_integer fresh16 "abc".toList (by decide)).1, rfl,
    (parse_app_collector_port_not_integer fresh16 "abc".toList (by decide)).2⟩

/-! ## Facts about specifications with arbitrary terms -/

theorem is_term_iff (t : CStr) : is_term t = true ↔ t ≠ [] ∧ ∀ c ∈ t, c ≠ ',' := by
  cases t <;> simp [is_term]

theorem strtok_join (t : CStr) (ts : List CStr) (h : is_term t = true) :
    strtok (join_commas (t :: ts)) ",".toList = some (t, join_commas ts) := by
  obtain ⟨h1, h2⟩ := (is_term_iff t).1 h
  rw [comma_delim]
  cases ts with
  | nil => exact strtok_last _ h1 h2
  | cons u us => exact strtok_token _ _ h1 h2

theorem length_le_join (ts : List CStr) (h : ∀ t ∈ ts, is_term t = true) :
    ts.length ≤ (join_commas ts).length := by
  induction ts with
  | nil => simp
  | cons t ts ih =>
    have ht := ((is_term_iff t).1 (h t (List.mem_cons_self _ _))).1
    have hpos : 0 < t.length := List.length_pos.2 ht
    have hts := ih (fun u hu => h u (List.mem_cons_of_mem _ hu))
    cases ts with
    | nil => simpa [join_commas] using hpos
    | cons u us =>
      simp only [join_commas, List.length_append, List.length_cons] at hts ⊢
      omega

theorem sscanf_l2p_unassigned (ptr : CStr) (lid pid qid a b c : Int)
    (h : sscanf_l2p ptr lid pid qid = Outcome.ok (a, b, c)) :
    carried_over (sscanf_l2p_assigned ptr) ⟨lid, pid, qid⟩ ⟨a, b, c⟩ := by
  unfold carried_over
  unfold sscanf_l2p at h
  unfold sscanf_l2p_assigned
  cases h1 : scan_d ptr with
  | none =>
    rw [h1] at h
    simp only [Outcome.ok.injEq, Prod.mk.injEq] at h
    simp only [h.1, h.2.1, h.2.2, implies_true, and_self]
  | some w1 =>
    obtain ⟨v1, r1⟩ := w1
    rw [h1] at h
    simp only at h ⊢
    split at h
    · exact Outcome.noConfusion h
    · cases r1 with
      | nil =>
        simp only [Outcome.ok.injEq, Prod.mk.injEq] at h
        simp only [h.2.1, h.2.2, Nat.lt_irrefl, false_implies, implies_true, and_self]
      | cons c1 r2 =>
        simp only at h ⊢
        by_cases hc1 : c1 ≠ ':'
        · rw [if_pos hc1] at h ⊢
          simp only [Outcome.ok.injEq, Prod.mk.injEq] at h
          simp only [h.2.1, h.2.2, Nat.lt_irrefl, false_implies, implies_true, and_self]
        · rw [if_neg hc1] at h ⊢
          cases h2 : scan_d r2 with
          | none =>
            rw [h2] at h
            simp only [Outcome.ok.injEq, Prod.mk.injEq] at h
            simp only [h.2.1, h.2.2, Nat.lt_irrefl, false_implies, implies_true, and_self]
          | some w2 =>
            obtain ⟨v2, r3⟩ := w2
            rw [h2] at h
            simp only at h ⊢
            split at h
            · exact Outcome.noConfusion h
            · cases r3 with
              | nil =>
                simp only [Outcome.ok.injEq, Prod.mk.injEq] at h
                exact ⟨fun hn => absurd hn (by decide), fun hn => absurd hn (by decide),
                    fun _ => h.2.2.symm⟩
              | cons c2 r4 =>
                simp only at h ⊢
                by_cases hc2 : c2 ≠ '.'
                · rw [if_pos hc2] at h ⊢
                  simp only [Outcome.ok.injEq, Prod.mk.injEq] at h
                  exact ⟨fun hn => absurd hn (by decide), fun hn => absurd hn (by decide),
                    fun _ => h.2.2.symm⟩
                · rw [if_neg hc2] at h ⊢
                  cases h3 : scan_d r4 with
                  | none =>
                    rw [h3] at h
                    simp only [Outcome.ok.injEq, Prod.mk.injEq] at h
                    exact ⟨fun hn => absurd hn (by decide), fun hn => absurd hn (by decide),
                    fun _ => h.2.2.symm⟩
                  | some w3 =>
                    simp only
                    exact ⟨fun hn => absurd hn (by decide), fun hn => absurd hn (by decide),
                      fun hn => absurd hn (by decide)⟩

theorem set_splice (l : List l2p_t) (idx : Nat) (e : l2p_t) (es : List l2p_t)
    (h : idx < l.length) :
    (l.set idx e).take (idx + 1) ++ es ++ (l.set idx e).drop (idx + 1 + es.length)
      = l.take idx ++ (e :: es) ++ l.drop (idx + (es.length + 1)) := by
  rw [List.drop_set_of_lt _ _ (by omega)]
  have ht : (l.set idx e).take (idx + 1) = l.take idx ++ [e] := by
    rw [List.set_eq_take_append_cons_drop, if_pos h, List.take_append_eq_append_take]
    simp [List.length_take, Nat.min_eq_left (Nat.le_of_lt h), List.take_take]
  rw [ht]
  have e2 : idx + 1 + es.length = idx + (es.length + 1) := by omega
  rw [e2]
  simp

theorem l2p_entries_length (toks : List CStr) :
    ∀ (lid pid qid : Int),
      (∀ t ∈ toks, ∀ l p q, ∃ v, sscanf_l2p t l p q = Outcome.ok v) →
      (l2p_entries toks lid pid qid).length = toks.length := by
  induction toks with
  | nil => intro lid pid qid _; rfl
  | cons t ts ih =>
    intro lid pid qid hfit
    obtain ⟨⟨a, b, c⟩, hv⟩ := hfit t (List.mem_cons_self _ _) lid pid qid
    rw [l2p_entries, hv]
    simp only [List.length_cons]
    rw [ih a b c (fun u hu => hfit u (List.mem_cons_of_mem _ hu))]

theorem l2p_loop_tokens (toks : List CStr) :
    ∀ (fuel : Nat) (probe : probe_t) (idx : Nat) (lid pid qid : Int),
      (∀ t ∈ toks, is_term t = true) →
      (∀ t ∈ toks, ∀ l p q, ∃ v, sscanf_l2p t l p q = Outcome.ok v) →
      toks.length < fuel → idx + toks.length ≤ probe.l2p.length →
      l2p_loop fuel (join_commas toks) probe idx lid pid qid =
        Outcome.ok
          ({ probe with
              l2p := probe.l2p.take idx ++ l2p_entries toks lid pid qid
                ++ probe.l2p.drop (idx + toks.length) },
            idx + toks.length) := by
  induction toks with
  | nil =>
    intro fuel probe idx lid pid qid _ _ hf _
    cases fuel with
    | zero => omega
    | succ n =>
      simp [l2p_loop, join_commas, l2p_entries, strtok_nil]
  | cons t ts ih =>
    intro fuel probe idx lid pid qid hterm hfit hf hcap
    have ht : is_term t = true := hterm t (List.mem_cons_self _ _)
    have hts : ∀ u ∈ ts, is_term u = true := fun u hu => hterm u (List.mem_cons_of_mem _ hu)
    have hfs : ∀ u ∈ ts, ∀ l p q, ∃ v, sscanf_l2p u l p q = Outcome.ok v :=
      fun u hu => hfit u (List.mem_cons_of_mem _ hu)
    obtain ⟨⟨a, b, c⟩, hv⟩ := hfit t (List.mem_cons_self _ _) lid pid qid
    simp only [List.length_cons] at hf hcap
    cases fuel with
    | zero => omega
    | succ n =>
      have hidx : idx < probe.l2p.length := by omega
      rw [l2p_loop, strtok_join t ts ht]
      simp only [hv, l2p_store, hidx, if_true]
      rw [ih n _ (idx + 1) _ _ _ hts hfs (by omega) (by simp only [List.length_set]; omega)]
      have hl := l2p_entries_length ts a b c hfs
      have hsp := set_splice probe.l2p idx ⟨a, b, c⟩ (l2p_entries ts a b c) hidx
      rw [hl] at hsp
      simp only [List.length_cons, l2p_entries, hv, hsp, Outcome.ok.injEq, Prod.mk.injEq,
        true_and]
      omega

theorem l2p_entries_carried (toks : List CStr) :
    ∀ (lid pid qid : Int),
      (∀ t ∈ toks, ∀ l p q, ∃ v, sscanf_l2p t l p q = Outcome.ok v) →
      ∀ j t, toks.get? j = some t →
        ∃ e0 e1, (⟨lid, pid, qid⟩ :: l2p_entries toks lid pid qid).get? j = some e0 ∧
          (l2p_entries toks lid pid qid).get? j = some e1 ∧
          carried_over (sscanf_l2p_assigned t) e0 e1 := by
  induction toks with
  | nil =>
    intro lid pid qid _ j t h
    simp at h
  | cons t0 ts ih =>
    intro lid pid qid hfit j t h
    obtain ⟨⟨a, b, c⟩, hv⟩ := hfit t0 (List.mem_cons_self _ _) lid pid qid
    rw [l2p_entries, hv]
    cases j with
    | zero =>
      simp only [List.get?_cons_zero, Option.some.injEq] at h
      rw [← h]
      exact ⟨_, _, rfl, rfl, sscanf_l2p_unassigned t0 lid pid qid a b c hv⟩
    | succ i =>
      simp only [List.get?_cons_succ] at h ⊢
      exact ih a b c (fun u hu => hfit u (List.mem_cons_of_mem _ hu)) i t h

theorem parse_app_l2p_tokens (P : platform_t) (fr : frame_t) (probe : probe_t)
    (toks : List CStr) (hne : toks ≠ []) (hterm : ∀ t ∈ toks, is_term t = true)
    (hfit : ∀ t ∈ toks, ∀ l p q, ∃ v, sscanf_l2p t l p q = Outcome.ok v)
    (hlen : (join_commas toks).length ≤ 63) (hcap : toks.length ≤ probe.l2p.length) :
    parse_app_l2p P fr probe (join_commas toks) =
      Outcome.ok
        ({ probe with
            l2p := l2p_entries toks fr.lid fr.pid fr.qid ++ probe.l2p.drop toks.length },
          l2p_log P toks.length) := by
  cases toks with
  | nil => exact absurd rfl hne
  | cons t ts =>
    have ht : is_term t = true := hterm t (List.mem_cons_self _ _)
    have hts : ∀ u ∈ ts, is_term u = true := fun u hu => hterm u (List.mem_cons_of_mem _ hu)
    have hfs : ∀ u ∈ ts, ∀ l p q, ∃ v, sscanf_l2p u l p q = Outcome.ok v :=
      fun u hu => hfit u (List.mem_cons_of_mem _ hu)
    obtain ⟨⟨a, b, c⟩, hv⟩ := hfit t (List.mem_cons_self _ _) fr.lid fr.pid fr.qid
    simp only [List.length_cons] at hcap
    have h0 : 0 < probe.l2p.length := by omega
    have hbuf : ¬ 64 < (join_commas (t :: ts)).length + 1 := by omega
    rw [parse_app_l2p, if_neg hbuf, strtok_join t ts ht]
    simp only [hv, l2p_store, h0, if_true]
    rw [l2p_loop_tokens ts _ _ 1 _ _ _ hts hfs (Nat.lt_succ_of_le (length_le_join ts hts))
      (by simp only [List.length_set]; omega)]
    have hl := l2p_entries_length ts a b c hfs
    have hsp := set_splice probe.l2p 0 ⟨a, b, c⟩ (l2p_entries ts a b c) h0
    rw [hl] at hsp
    have hsp1 : List.take 1 (probe.l2p.set 0 ⟨a, b, c⟩) ++ l2p_entries ts a b c
        ++ List.drop (1 + ts.length) (probe.l2p.set 0 ⟨a, b, c⟩)
        = ⟨a, b, c⟩ :: l2p_entries ts a b c ++ List.drop (ts.length + 1) probe.l2p := by
      simpa using hsp
    simp only [l2p_log, List.length_cons, l2p_entries, hv, hsp1]
    rw [Nat.add_comm 1 ts.length]
    split <;> rfl

/-- C13: an unparseable term never makes `parse_app_l2p` reject a
specification. For every specification of k >= 1 non-empty comma-separated
terms that stays within defined behaviour (its text fits the 64-byte `temp`,
its terms fit the mapping array and no `%d` conversion overflows an `int`),
whatever its terms look like, the call returns, counts k entries for the
comparison with the worker cores, changes no entry beyond the first k, and for
every term after the first each field its scan did not assign holds, in the
entry written for it, the value of the same field of the entry before. -/
theorem parse_app_l2p_unparseable_term (P : platform_t) (fr : frame_t) (probe : probe_t)
    (toks : List CStr) (hne : toks ≠ []) (hterm : ∀ t ∈ toks, is_term t = true)
    (hfit : ∀ t ∈ toks, ∀ l p q, ∃ v, sscanf_l2p t l p q = Outcome.ok v)
    (hlen : (join_commas toks).length ≤ 63) (hcap : toks.length ≤ probe.l2p.length) :
    ∃ probe1,
      parse_app_l2p P fr probe (join_commas toks)
        = Outcome.ok (probe1, l2p_log P toks.length) ∧
      probe1.l2p.length = probe.l2p.length ∧
      probe1.l2p.drop toks.length = probe.l2p.drop toks.length ∧
      ∀ j t, toks.get? (j + 1) = some t →
        ∃ e0 e1, probe1.l2p.get? j = some e0 ∧ probe1.l2p.get? (j + 1) = some e1 ∧
          carried_over (sscanf_l2p_assigned t) e0 e1 := by
  have hl := l2p_entries_length toks fr.lid fr.pid fr.qid hfit
  refine ⟨_, parse_app_l2p_tokens P fr probe toks hne hterm hfit hlen hcap, ?_, ?_, ?_⟩
  · simp only [List.length_append, List.length_drop, hl]
    omega
  · exact List.drop_left' hl
  · intro j t ht
    obtain ⟨e0, e1, h0, h1, hc⟩ :=
      l2p_entries_carried toks fr.lid fr.pid fr.qid hfit (j + 1) t ht
    simp only [List.get?_cons_succ] at h0
    refine ⟨e0, e1, ?_, ?_, hc⟩
    · simp only [List.get?_eq_getElem?] at h0 ⊢
      have hj : j < (l2p_entries toks fr.lid fr.pid fr.qid).length := by
        rcases Nat.lt_or_ge j (l2p_entries toks fr.lid fr.pid fr.qid).length with h | h
        · exact h
        · rw [List.getElem?_eq_none h] at h0
          exact Option.noConfusion h0
      rw [List.getElem?_append_left hj]
      exact h0
    · simp only [List.get?_eq_getElem?] at h1 ⊢
      have hj : j + 1 < (l2p_entries toks fr.lid fr.pid fr.qid).length := by
        rcases Nat.lt_or_ge (j + 1) (l2p_entries toks fr.lid fr.pid fr.qid).length with h | h
        · exact h
        · rw [List.getElem?_eq_none h] at h1
          exact Option.noConfusion h1
      rw [List.getElem?_append_left hj]
      exact h1

/-- C13 at the specification `1:0.0,x,3:4` on a fresh descriptor with two
worker cores: three entries are counted; the entry for `x` repeats (1,0,0) and
the entry for `3:4` keeps queue 0. -/
theorem parse_app_l2p_unparseable_term_witness :
    join_commas broken_terms = "1:0.0,x,3:4".toList ∧
    parse_app_l2p two_workers (zero_frames 0) fresh16 "1:0.0,x,3:4".toList
      = Outcome.ok
          ({ fresh16 with
              l2p := ⟨1, 0, 0⟩ :: ⟨1, 0, 0⟩ :: ⟨3, 4, 0⟩ :: List.replicate 29 ⟨0, 0, 0⟩ },
            [Event.init_log_err 1 2]) ∧
    sscanf_l2p_assigned "x".toList = 0 ∧ sscanf_l2p_assigned "3:4".toList = 2 ∧
    ∃ probe1,
      parse_app_l2p two_workers (zero_frames 0) fresh16 (join_commas broken_terms)
        = Outcome.ok (probe1, l2p_log two_workers broken_terms.length) ∧
      probe1.l2p.length = fresh16.l2p.length ∧
      probe1.l2p.drop broken_terms.length = fresh16.l2p.drop broken_terms.length ∧
      ∀ j t, broken_terms.get? (j + 1) = some t →
        ∃ e0 e1, probe1.l2p.get? j = some e0 ∧ probe1.l2p.get? (j + 1) = some e1 ∧
          carried_over (sscanf_l2p_assigned t) e0 e1 :=
  ⟨by decide, by decide, by decide, by decide,
    parse_app_l2p_unparseable_term two_workers (zero_frames 0) fresh16 broken_terms
      (by decide) (by decide)
      (by
        intro t ht l p q
        simp only [broken_terms, List.mem_cons, List.mem_singleton, List.mem_nil_iff,
          or_false] at ht
        rcases ht with h | h | h <;> rw [h] <;> exact ⟨_, rfl⟩)
      (by decide) (by decide)⟩

theorem l2p_loop_tokens_frame (toks : List CStr) :
    ∀ (fuel : Nat) (probe : probe_t) (idx : Nat) (lid pid qid : Int) (probe1 : probe_t)
      (idx1 : Nat),
      (∀ t ∈ toks, is_term t = true) →
      l2p_loop fuel (join_commas toks) probe idx lid pid qid = Outcome.ok (probe1, idx1) →
      idx1 = idx + toks.length ∧
      probe1.l2p.drop (idx + toks.length) = probe.l2p.drop (idx + toks.length) := by
  induction toks with
  | nil =>
    intro fuel probe idx lid pid qid probe1 idx1 _ h
    cases fuel with
    | zero => exact Outcome.noConfusion h
    | succ n =>
      rw [l2p_loop] at h
      have e : strtok (join_commas []) ",".toList = none := rfl
      rw [e] at h
      simp only [Outcome.ok.injEq, Prod.mk.injEq] at h
      rw [← h.1, ← h.2]
      exact ⟨rfl, rfl⟩
  | cons t ts ih =>
    intro fuel probe idx lid pid qid probe1 idx1 hterm h
    have ht : is_term t = true := hterm t (List.mem_cons_self _ _)
    have hts : ∀ u ∈ ts, is_term u = true := fun u hu => hterm u (List.mem_cons_of_mem _ hu)
    cases fuel with
    | zero => exact Outcome.noConfusion h
    | succ n =>
      rw [l2p_loop, strtok_join t ts ht] at h
      simp only at h
      cases h1 : sscanf_l2p t lid pid qid with
      | fault f =>
        rw [h1] at h
        exact Outcome.noConfusion h
      | ok v =>
        obtain ⟨a, b, c⟩ := v
        rw [h1] at h
        simp only at h
        cases h2 : l2p_store probe idx a b c with
        | fault f =>
          rw [h2] at h
          exact Outcome.noConfusion h
        | ok p1 =>
          rw [h2] at h
          simp only at h
          obtain ⟨i1, i2⟩ := ih _ _ _ _ _ _ _ _ hts h
          have hp1 : p1.l2p = probe.l2p.set idx ⟨a, b, c⟩ := by
            unfold l2p_store at h2
            split at h2
            · injection h2 with h2
              rw [← h2]
            · exact Outcome.noConfusion h2
          simp only [List.length_cons]
          have e : idx + (ts.length + 1) = idx + 1 + ts.length := by omega
          rw [e]
          refine ⟨i1, ?_⟩
          rw [i2, hp1, List.drop_set_of_lt _ _ (by omega)]

theorem parse_app_l2p_tokens_frame (P : platform_t) (fr : frame_t) (probe probe1 : probe_t)
    (toks : List CStr) (log : List Event) (hne : toks ≠ [])
    (hterm : ∀ t ∈ toks, is_term t = true)
    (h : parse_app_l2p P fr probe (join_commas toks) = Outcome.ok (probe1, log)) :
    probe1.l2p.drop toks.length = probe.l2p.drop toks.length ∧ log = l2p_log P toks.length := by
  cases toks with
  | nil => exact absurd rfl hne
  | cons t ts =>
    have ht : is_term t = true := hterm t (List.mem_cons_self _ _)
    have hts : ∀ u ∈ ts, is_term u = true := fun u hu => hterm u (List.mem_cons_of_mem _ hu)
    unfold parse_app_l2p at h
    split at h
    · exact Outcome.noConfusion h
    · rw [strtok_join t ts ht] at h
      simp only at h
      cases h1 : sscanf_l2p t fr.lid fr.pid fr.qid with
      | fault e =>
        rw [h1] at h
        exact Outcome.noConfusion h
      | ok v =>
        obtain ⟨a, b, c⟩ := v
        rw [h1] at h
        simp only at h
        cases h2 : l2p_store probe 0 a b c with
        | fault e =>
          rw [h2] at h
          exact Outcome.noConfusion h
        | ok p1 =>
          rw [h2] at h
          simp only at h
          cases h3 : l2p_loop ((join_commas ts).length + 1) (join_commas ts) p1 1 a b c with
          | fault e =>
            rw [h3] at h
            exact Outcome.noConfusion h
          | ok w =>
            obtain ⟨p2, idx⟩ := w
            rw [h3] at h
            simp only at h
            obtain ⟨i1, i2⟩ := l2p_loop_tokens_frame ts _ _ _ _ _ _ _ _ hts h3
            have hp1 : p1.l2p = probe.l2p.set 0 ⟨a, b, c⟩ := by
              unfold l2p_store at h2
              split at h2
              · injection h2 with h2
                rw [← h2]
              · exact Outcome.noConfusion h2
            have hd : p2.l2p.drop (ts.length + 1) = probe.l2p.drop (ts.length + 1) := by
              rw [Nat.add_comm ts.length 1, i2, hp1, List.drop_set_of_lt _ _ (by omega)]
            have hlog : ∀ (lg : List Event),
                (if idx ≠ (lcore_foreach_slave P).length then
                  Outcome.ok (p2, [Event.init_log_err
                    (((lcore_foreach_slave P).length : Int) - 1) ((idx : Int) - 1)])
                else Outcome.ok (p2, [])) = Outcome.ok (probe1, lg) →
                probe1 = p2 ∧ lg = l2p_log P idx := by
              intro lg hh
              unfold l2p_log
              split at hh
              · next hc =>
                rw [if_pos hc]
                simp only [Outcome.ok.injEq, Prod.mk.injEq] at hh
                exact ⟨hh.1.symm, hh.2.symm⟩
              · next hc =>
                rw [if_neg hc]
                simp only [Outcome.ok.injEq, Prod.mk.injEq] at hh
                exact ⟨hh.1.symm, hh.2.symm⟩
            obtain ⟨j1, j2⟩ := hlog log h
            simp only [List.length_cons]
            rw [j1, j2, i1, Nat.add_comm 1 ts.length]
            exact ⟨hd, rfl⟩

/-- C15: for every descriptor and every specification of k >= 1 non-empty
comma-separated terms on which `parse_app_l2p` returns, the call changes only
mapping entries 0..k-1: every entry at an index of k or more and every field
outside the mapping table is as before. Hence `prog -m 1:0.0,2:0.1 -m 3:1.0`
leaves entry 0 = (3,1,0) and entry 1 = (2,0,1), the second entry of the first
specification. -/
theorem parse_app_l2p_frame_effect (P : platform_t) (fr : frame_t) (probe probe1 : probe_t)
    (toks : List CStr) (log : List Event) (hne : toks ≠ [])
    (hterm : ∀ t ∈ toks, is_term t = true)
    (h : parse_app_l2p P fr probe (join_commas toks) = Outcome.ok (probe1, log)) :
    probe1.collector = probe.collector ∧ probe1.nb_queues = probe.nb_queues ∧
    probe1.rest = probe.rest ∧ probe1.l2p.length = probe.l2p.length ∧
    (∀ i, toks.length ≤ i → probe1.l2p.get? i = probe.l2p.get? i) ∧
    app_parse_args two_workers layout16 zero_frames fresh16
        ["prog".toList, "-m".toList, "1:0.0,2:0.1".toList, "-m".toList, "3:1.0".toList]
      = Outcome.ok
          { ret := 4
            optind := 5
            argv := ["prog".toList, "-m".toList, "1:0.0,2:0.1".toList, "-m".toList,
              "prog".toList]
            probe := { fresh16 with
              l2p := ⟨3, 1, 0⟩ :: ⟨2, 0, 1⟩ :: List.replicate 30 ⟨0, 0, 0⟩ }
            out := [Event.init_log_err 1 0] } := by
  obtain ⟨⟨f1, f2, f3, f4⟩, _⟩ := parse_app_l2p_frame P fr probe probe1 _ log h
  obtain ⟨hd, _⟩ := parse_app_l2p_tokens_frame P fr probe probe1 toks log hne hterm h
  refine ⟨f1, f2, f3, f4, ?_, by decide⟩
  intro i hi
  obtain ⟨n, hn⟩ := Nat.exists_eq_add_of_le hi
  simp only [List.get?_eq_getElem?]
  rw [hn, ← List.getElem?_drop, ← List.getElem?_drop, hd]

/-- C15 at the specification `3:1.0` on the descriptor left by `1:0.0,2:0.1`:
entry 1 is still (2,0,1). -/
theorem parse_app_l2p_frame_effect_witness :
    parse_app_l2p two_workers (zero_frames 0) mapped16 (join_commas ["3:1.0".toList])
      = Outcome.ok
          ({ fresh16 with l2p := ⟨3, 1, 0⟩ :: ⟨2, 0, 1⟩ :: List.replicate 30 ⟨0, 0, 0⟩ },
            [Event.init_log_err 1 0]) ∧
    (∀ i, 1 ≤ i →
      (⟨3, 1, 0⟩ :: ⟨2, 0, 1⟩ :: List.replicate 30 (⟨0, 0, 0⟩ : l2p_t)).get? i
        = mapped16.l2p.get? i) :=
  ⟨by decide,
    (parse_app_l2p_frame_effect two_workers (zero_frames 0) mapped16
      { fresh16 with l2p := ⟨3, 1, 0⟩ :: ⟨2, 0, 1⟩ :: List.replicate 30 ⟨0, 0, 0⟩ }
      ["3:1.0".toList] [Event.init_log_err 1 0] (by decide) (by decide)
      (by decide)).2.2.2.2.1⟩

theorem opt_switch_none (P : platform_t) (L : layout_t) (f : frame_t) (probe : probe_t)
    (opt : Int) (optarg : Option CStr)
    (h : opt_switch P L f probe opt optarg = Outcome.ok none) : is_taken opt = false := by
  unfold opt_switch at h
  split at h
  · cases optarg with
    | none => exact Outcome.noConfusion h
    | some a =>
      simp only at h
      cases h1 : parse_app_l2p P f probe a with
      | fault e1 =>
        rw [h1] at h
        exact Outcome.noConfusion h
      | ok v =>
        rw [h1] at h
        simp only [Outcome.ok.injEq] at h
        exact Option.noConfusion h
  · split at h
    · cases optarg with
      | none => exact Outcome.noConfusion h
      | some a =>
        simp only at h
        cases h1 : parse_app_collector_host L probe a with
        | fault e1 =>
          rw [h1] at h
          exact Outcome.noConfusion h
        | ok v =>
          rw [h1] at h
          simp only [Outcome.ok.injEq] at h
          exact Option.noConfusion h
    · split at h
      · cases optarg with
        | none => exact Outcome.noConfusion h
        | some a =>
          simp only at h
          cases h1 : parse_app_collector_port probe a with
          | fault e1 =>
            rw [h1] at h
            exact Outcome.noConfusion h
          | ok v =>
            rw [h1] at h
            simp only [Outcome.ok.injEq] at h
            exact Option.noConfusion h
      · split at h
        · cases optarg with
          | none => exact Outcome.noConfusion h
          | some a =>
            simp only at h
            cases h1 : parse_app_num_queues f probe a with
            | fault e1 =>
              rw [h1] at h
              exact Outcome.noConfusion h
            | ok v =>
              rw [h1] at h
              simp only [Outcome.ok.injEq] at h
              exact Option.noConfusion h
        · next h1 h2 h3 h4 =>
          cases ht : is_taken opt with
          | false => rfl
          | true =>
            rcases (is_taken_iff opt).1 ht with h | h | h | h
            · exact absurd h h1
            · exact absurd h h2
            · exact absurd h h3
            · exact absurd h h4

theorem parse_loop_accepts (P : platform_t) (L : layout_t) (prgname : CStr) (fuel : Nat) :
    ∀ (fr : Nat → frame_t) (st : getopt_t) (probe : probe_t) (out : List Event)
      (r : parse_result),
      parse_loop P L prgname fuel fr st probe out = Outcome.ok r →
      (0 ≤ r.ret ↔ ∀ o ∈ delivered fuel st, is_taken o.1 = true) := by
  induction fuel with
  | zero =>
    intro fr st probe out r h
    exact Outcome.noConfusion h
  | succ n ih =>
    intro fr st probe out r h
    rw [parse_loop] at h
    rw [delivered]
    split at h
    · next heof =>
      injection h with h
      rw [if_pos heof, ← h]
      simp only [getopt_t.optind, List.not_mem_nil, false_implies, implies_true, iff_true]
      omega
    · next hne =>
      rw [if_neg hne]
      cases hs : opt_switch P L (fr 0) probe (getopt_long optstring st).1
          (getopt_long optstring st).2.1 with
      | fault e1 =>
        rw [hs] at h
        exact Outcome.noConfusion h
      | ok v =>
        rw [hs] at h
        cases v with
        | none =>
          simp only at h
          injection h with h
          have hnt := opt_switch_none _ _ _ _ _ _ hs
          rw [← h, hnt]
          simp only [Bool.false_eq_true, if_false, List.mem_singleton, forall_eq, hnt,
            iff_false, not_le]
          decide
        | some w =>
          obtain ⟨p1, lg⟩ := w
          simp only at h
          have ht := (opt_switch_some _ _ _ _ _ _ _ _ hs).1
          rw [if_pos ht, ih _ _ _ _ _ h]
          simp only [List.mem_cons, forall_eq_or_imp, ht, true_and]

theorem getopt_long_end (seen skipped : List CStr) (pc : Bool) :
    (getopt_long optstring ⟨seen, skipped, [], [], pc⟩).1 = EOF := by
  unfold getopt_long
  cases pc <;> rfl

theorem is_taken_not_dash {c : Char} (h : is_taken (opt_code c) = true) : c ≠ '-' := by
  intro e
  rw [e] at h
  exact absurd h (by decide)

theorem delivered_option_args (ps : List (Char × CStr)) :
    ∀ (fuel : Nat) (seen skipped : List CStr) (pc : Bool),
      (∀ p ∈ ps, is_taken (opt_code p.1) = true) →
      ∀ o ∈ delivered fuel ⟨seen, skipped, [], option_args ps, pc⟩, is_taken o.1 = true := by
  induction ps with
  | nil =>
    intro fuel seen skipped pc _ o ho
    cases fuel with
    | zero => simp [delivered] at ho
    | succ n =>
      rw [delivered, option_args, if_pos (getopt_long_end seen skipped pc)] at ho
      simp at ho
  | cons p ps ih =>
    intro fuel seen skipped pc hp o ho
    have hp1 := hp p (List.mem_cons_self _ _)
    obtain ⟨hl, h1, h2⟩ := is_taken_code hp1
    have h3 := is_taken_not_dash hp1
    cases fuel with
    | zero => simp [delivered] at ho
    | succ n =>
      rw [delivered, option_args,
        getopt_long_separate seen skipped p.1 p.2 (option_args ps) pc hl h1 h2 h3] at ho
      simp only [if_neg (opt_code_ne_EOF p.1), hp1, if_true, List.mem_cons] at ho
      rcases ho with ho | ho
      · rw [ho]
        exact hp1
      · exact ih n _ _ _ (fun q hq => hp q (List.mem_cons_of_mem _ hq)) o ho

theorem parse_loop_option_args (P : platform_t) (L : layout_t) (prgname : CStr)
    (ps : List (Char × CStr)) :
    ∀ (fuel : Nat) (fr : Nat → frame_t) (seen : List CStr) (pc : Bool) (probe : probe_t)
      (out : List Event) (r : parse_result),
      (∀ p ∈ ps, is_taken (opt_code p.1) = true) →
      parse_loop P L prgname fuel fr ⟨seen, [], [], option_args ps, pc⟩ probe out
        = Outcome.ok r →
      r.ret = ((seen.length + (option_args ps).length : Nat) : Int) := by
  induction ps with
  | nil =>
    intro fuel fr seen pc probe out r _ h
    cases fuel with
    | zero => exact Outcome.noConfusion h
    | succ n =>
      rw [option_args, parse_loop_end] at h
      injection h with h
      rw [← h]
      simp [option_args]
  | cons p ps ih =>
    intro fuel fr seen pc probe out r hp h
    have hp1 := hp p (List.mem_cons_self _ _)
    obtain ⟨hl, h1, h2⟩ := is_taken_code hp1
    have h3 := is_taken_not_dash hp1
    cases fuel with
    | zero => exact Outcome.noConfusion h
    | succ n =>
      rw [option_args, parse_loop,
        getopt_long_separate seen [] p.1 p.2 (option_args ps) pc hl h1 h2 h3] at h
      simp only [if_neg (opt_code_ne_EOF p.1)] at h
      cases hs : opt_switch P L (fr 0) probe (opt_code p.1) (some p.2) with
      | fault e1 =>
        rw [hs] at h
        exact Outcome.noConfusion h
      | ok v =>
        rw [hs] at h
        cases v with
        | none =>
          have := opt_switch_none _ _ _ _ _ _ hs
          rw [hp1] at this
          exact Bool.noConfusion this
        | some w =>
          obtain ⟨p1, lg⟩ := w
          simp only at h
          rw [ih n _ _ _ _ _ r (fun q hq => hp q (List.mem_cons_of_mem _ hq)) h]
          simp only [List.length_append, List.length_cons, List.length_nil, option_args]
          omega

/-- C9: `app_parse_args` never stops for lack of loop fuel. Whenever it returns
on an argument vector in which every option `getopt_long` delivers is one of
`m`, `H`, `P`, `q` with its argument, the value returned is non-negative and
is the final `optind` minus one, the number of elements consumed by option
processing, and the element at that index holds the program name afterwards;
for a vector made of such options written apart from their arguments that
number is the count of all elements after the program name. The result is
non-negative for no other vector: every other return is -1. -/
theorem app_parse_args_return_value (P : platform_t) (L : layout_t) (fr : Nat → frame_t)
    (probe : probe_t) (prgname : CStr) (args : List CStr) :
    (∀ e, app_parse_args P L fr probe (prgname :: args) = Outcome.fault e →
      e ≠ Fault.out_of_fuel) ∧
    ∀ r, app_parse_args P L fr probe (prgname :: args) = Outcome.ok r →
      ((∀ o ∈ delivered (args.length + 1) (getopt_start P args), is_taken o.1 = true) →
        0 ≤ r.ret ∧ r.ret = (r.optind : Int) - 1 ∧ 1 ≤ r.optind ∧
        r.argv.get? r.ret.toNat = some prgname) ∧
      (0 ≤ r.ret ↔
        ∀ o ∈ delivered (args.length + 1) (getopt_start P args), is_taken o.1 = true) ∧
      (∀ ps : List (Char × CStr), (∀ p ∈ ps, is_taken (opt_code p.1) = true) →
        args = option_args ps →
        (∀ o ∈ delivered (args.length + 1) (getopt_start P args), is_taken o.1 = true) ∧
        0 ≤ r.ret ∧ r.ret = (args.length : Int)) ∧
      (r.ret < 0 → r.ret = -1) ∧
      (0 ≤ r.ret →
        r.ret = (r.optind : Int) - 1 ∧ 1 ≤ r.optind ∧
        r.argv.get? r.ret.toNat = some prgname) := by
  refine ⟨fun e h => ?_, fun r h => ?_⟩
  · exact parse_loop_fuel P L prgname _ _ _ _ _ e (Nat.lt_succ_self _) h
  · have h1 := (parse_loop_ok P L prgname _ _ _ _ _ r h).1
    have hacc := parse_loop_accepts P L prgname _ _ _ _ _ r h
    have hpos : 0 ≤ r.ret →
        r.ret = (r.optind : Int) - 1 ∧ 1 ≤ r.optind ∧
        r.argv.get? r.ret.toNat = some prgname := by
      intro hpos
      rcases h1 with h1 | ⟨h1, h2, h3⟩
      · omega
      · refine ⟨h1, h2, ?_⟩
        have : r.ret.toNat = r.optind - 1 := by omega
        rw [this]
        exact h3
    refine ⟨fun hd => ⟨hacc.2 hd, hpos (hacc.2 hd)⟩, hacc, ?_, ?_, hpos⟩
    · intro ps hps hargs
      have hd : ∀ o ∈ delivered (args.length + 1) (getopt_start P args),
          is_taken o.1 = true := by
        rw [hargs]
        exact delivered_option_args ps _ [] [] P.posixly_correct hps
      refine ⟨hd, hacc.2 hd, ?_⟩
      have h2 : parse_loop P L prgname (args.length + 1) fr
          ⟨[], [], [], option_args ps, P.posixly_correct⟩ probe [] = Outcome.ok r := by
        rw [← hargs]
        exact h
      rw [parse_loop_option_args P L prgname ps _ _ _ _ _ _ r hps h2, hargs]
      simp
    · intro hneg
      rcases h1 with h1 | ⟨h1, h2, _⟩
      · exact h1
      · omega

/-- C9 at `prog -H 10.0.0.5 -P 9995 -q 4 -m 1:0.0,2:0.1`: the four options
delivered are all taken, so the result is non-negative; the eight elements
after the program name are consumed, 8 is returned and element 8 holds the
program name. -/
theorem app_parse_args_return_value_witness :
    delivered (full_args.length + 1) (getopt_start two_workers full_args)
      = [(opt_code 'H', some "10.0.0.5".toList), (opt_code 'P', some "9995".toList),
         (opt_code 'q', some "4".toList), (opt_code 'm', some "1:0.0,2:0.1".toList)] ∧
    ∃ r, app_parse_args two_workers layout16 zero_frames fresh16 ("prog".toList :: full_args)
        = Outcome.ok r ∧
      r.ret = 8 ∧ r.optind = 9 ∧ r.argv.get? 8 = some "prog".toList ∧
      0 ≤ r.ret ∧ r.ret = (r.optind : Int) - 1 ∧ 1 ≤ r.optind ∧
      r.argv.get? r.ret.toNat = some "prog".toList := by
  have h : ∃ r, app_parse_args two_workers layout16 zero_frames fresh16
      ("prog".toList :: full_args) = Outcome.ok r ∧ r.ret = 8 ∧ r.optind = 9 ∧
      r.argv.get? 8 = some "prog".toList := ⟨_, rfl, by decide, by decide, by decide⟩
  obtain ⟨r, h1, h2, h3, h4⟩ := h
  exact ⟨by decide, r, h1, h2, h3, h4,
    ((app_parse_args_return_value two_workers layout16 zero_frames fresh16 _ _).2 r h1).1
      (by decide)⟩

end Snort
